import Mathlib

/-!
Verification development for the document text store of
`app/redis_client.py` (functions `put_doc_text`, `_decode_redis_value`,
`get_doc_text`, `clear_doc`, `redis_healthy`, `build_chunks_from_redis`).

Modelling conventions, documented once here:

* Python `str` values (document texts) are modelled by their UTF-8 byte
  sequences, `Bytes := List Nat` (each element < 256 in practice; claims
  carry a `utf8Valid` hypothesis where the source relies on valid UTF-8).
  `text.encode("utf-8")` is then the identity and `bytes.decode("utf-8")`
  succeeds exactly on valid UTF-8 byte sequences, returning them unchanged.
* Redis is modelled as an association list from structured keys to byte
  values.  The source builds key strings `doc:{id}`, `doc:{id}:meta`,
  `doc:{id}:chunk:{i}`; these are modelled by the inductive `RKey`, with
  `renderKey` producing the literal key string.  (String collisions between
  distinct identifiers, e.g. the doc key of id `x:meta` versus the meta key
  of id `x`, are outside every claim and are not modelled.)
* Remote-side TTL bookkeeping (`setex` expiry executed by the Redis server)
  is not modelled; no claim concerns remote expiry.  The in-process
  fallback map TTL check, which the source implements itself, is modelled
  exactly.
* Network failures are injected through a `Fail` record: `single` makes the
  single-key `setex` report failure (source line `ok = False` path),
  `chunk` makes the chunked pipeline `execute()` raise.  A raising
  pipeline is modelled as writing nothing.
* Timestamps (`time.time()`) are naturals passed in explicitly.
-/

/-! ## Bytes and association-list stores -/

abbrev Bytes := List Nat

/-- Association-list map used to model both the Redis key space and the
in-process `DOC_STORE` dictionary. -/
def KV (α β : Type) := List (α × β)

instance (α β : Type) [DecidableEq α] [DecidableEq β] : DecidableEq (KV α β) :=
  inferInstanceAs (DecidableEq (List (α × β)))

def kvGet {α β : Type} [DecidableEq α] : KV α β → α → Option β
  | [], _ => none
  | (k', v) :: rest, k => if k' = k then some v else kvGet rest k

def kvErase {α β : Type} [DecidableEq α] : KV α β → α → KV α β
  | [], _ => []
  | (k', v) :: rest, k =>
      if k' = k then kvErase rest k else (k', v) :: kvErase rest k

def kvSet {α β : Type} [DecidableEq α] (s : KV α β) (k : α) (v : β) : KV α β :=
  (k, v) :: kvErase s k

def kvHas {α β : Type} [DecidableEq α] (s : KV α β) (k : α) : Bool :=
  (kvGet s k).isSome

def kvLen {α β : Type} (s : KV α β) : Nat := List.length s

theorem kvGet_erase_self {α β : Type} [DecidableEq α] (s : KV α β) (k : α) :
    kvGet (kvErase s k) k = none := by
  induction s with
  | nil => rfl
  | cons p rest ih =>
      obtain ⟨k', v⟩ := p
      by_cases h : k' = k
      · simp [kvErase, h, ih]
      · simp [kvErase, kvGet, h, ih]

theorem kvGet_erase_ne {α β : Type} [DecidableEq α] (s : KV α β) (k k' : α)
    (h : k' ≠ k) : kvGet (kvErase s k) k' = kvGet s k' := by
  induction s with
  | nil => rfl
  | cons p rest ih =>
      obtain ⟨k0, v⟩ := p
      by_cases h0 : k0 = k
      · simp [kvErase, kvGet, h0, Ne.symm h, ih]
      · by_cases h1 : k0 = k'
        · subst h1
          simp [kvErase, kvGet, h0]
        · simp [kvErase, kvGet, h0, h1, ih]

theorem kvGet_set_self {α β : Type} [DecidableEq α] (s : KV α β) (k : α) (v : β) :
    kvGet (kvSet s k v) k = some v := by
  simp [kvSet, kvGet]

theorem kvGet_set_ne {α β : Type} [DecidableEq α] (s : KV α β) (k k' : α) (v : β)
    (h : k' ≠ k) : kvGet (kvSet s k v) k' = kvGet s k' := by
  simp [kvSet, kvGet, Ne.symm h, kvGet_erase_ne s k k' h]

theorem kvLen_erase_le {α β : Type} [DecidableEq α] (s : KV α β) (k : α) :
    kvLen (kvErase s k) ≤ kvLen s := by
  induction s with
  | nil => simp [kvErase, kvLen]
  | cons p rest ih =>
      obtain ⟨k0, v⟩ := p
      by_cases h : k0 = k
      · simp only [kvErase, if_pos h]
        exact Nat.le_succ_of_le ih
      · simp only [kvErase, if_neg h, kvLen, List.length_cons]
        exact Nat.succ_le_succ ih

/-! ## Structured Redis keys

The source builds the key strings f"doc:{doc_id}", f"doc:{doc_id}:meta"
and f"doc:{doc_id}:chunk:{i}". -/

inductive RKey : Type
  | doc (id : String)
  | meta (id : String)
  | chunk (id : String) (i : Nat)
deriving DecidableEq

/-- The literal key string the source would use for this structured key. -/
def renderKey : RKey → String
  | .doc id => "doc:" ++ id
  | .meta id => "doc:" ++ id ++ ":meta"
  | .chunk id i => "doc:" ++ id ++ ":chunk:" ++ Nat.repr i

abbrev Store := KV RKey Bytes

/-! ## Codec models

The source uses the `gzip` library, which is not part of this repository.
Modelled from the spec: `decompress(compress(b)) == b` for all `b`
(spec section 4.1), compressed output begins with the fixed gzip magic
bytes `1f 8b`, and `gzip.decompress` raises on input that does not carry
a valid gzip header.  The model realises exactly these facts: `compress`
prepends the magic, `decompress` strips it and fails otherwise.  No claim
depends on compression actually shrinking its input. -/

def gzipMagicBytes : Bytes := [31, 139]

def gzipCompressBytes (b : Bytes) : Bytes := gzipMagicBytes ++ b

def gzipDecompressBytes (b : Bytes) : Option Bytes :=
  if gzipMagicBytes.isPrefixOf b then some (b.drop 2) else none

/-- The `_MARKER_COMPRESSED = b"gzip:"` constant: bytes of `g z i p :`. -/
def markerCompressed : Bytes := [103, 122, 105, 112, 58]

theorem gzip_roundtrip (b : Bytes) : gzipDecompressBytes (gzipCompressBytes b) = some b := by
  simp [gzipCompressBytes, gzipDecompressBytes, gzipMagicBytes, List.isPrefixOf]

/-! ## UTF-8 validity

A standard UTF-8 byte-sequence validator (RFC 3629 table: rejects
continuation-byte leads, overlong forms, surrogates and values above
U+10FFFF), used to model Python's `bytes.decode("utf-8")`. -/

def isContByte (b : Nat) : Bool := 128 ≤ b && b ≤ 191

/-- Continuation-byte constraint for a two-byte sequence led by `b`. -/
def cont1Ok (c1 : Nat) : Bool := isContByte c1

/-- Continuation-byte constraints for a three-byte sequence led by `b`
(first continuation narrowed at `E0`/`ED` to reject overlongs and
surrogates). -/
def cont2Ok (b c1 c2 : Nat) : Bool :=
  (if b = 224 then 160 ≤ c1 && c1 ≤ 191
   else if b = 237 then 128 ≤ c1 && c1 ≤ 159
   else isContByte c1) && isContByte c2

/-- Continuation-byte constraints for a four-byte sequence led by `b`
(first continuation narrowed at `F0`/`F4` to reject overlongs and
values above U+10FFFF). -/
def cont3Ok (b c1 c2 c3 : Nat) : Bool :=
  (if b = 240 then 144 ≤ c1 && c1 ≤ 191
   else if b = 244 then 128 ≤ c1 && c1 ≤ 143
   else isContByte c1) && isContByte c2 && isContByte c3

/-- Consume one UTF-8-encoded character from the head of `l`, returning
the remaining bytes, or `none` when the head is not a well-formed
sequence. -/
def utf8SeqOk (l : Bytes) : Option Bytes :=
  match l with
  | [] => none
  | b :: r =>
    if b ≤ 127 then some r
    else if 194 ≤ b && b ≤ 223 then
      match r with
      | c1 :: r' => if cont1Ok c1 then some r' else none
      | [] => none
    else if 224 ≤ b && b ≤ 239 then
      match r with
      | c1 :: c2 :: r' => if cont2Ok b c1 c2 then some r' else none
      | _ => none
    else if 240 ≤ b && b ≤ 244 then
      match r with
      | c1 :: c2 :: c3 :: r' => if cont3Ok b c1 c2 c3 then some r' else none
      | _ => none
    else none

/-- Fuelled validity check; `utf8SeqOk` consumes at least one byte per
step, so fuel `l.length` is always sufficient (see
`utf8ValidFuel_fuel_irrel`). -/
def utf8ValidFuel (fuel : Nat) (l : Bytes) : Bool :=
  match fuel, l with
  | _, [] => true
  | 0, _ :: _ => false
  | fuel' + 1, b :: r =>
    match utf8SeqOk (b :: r) with
    | some rest => utf8ValidFuel fuel' rest
    | none => false

def utf8Valid (l : Bytes) : Bool := utf8ValidFuel l.length l

/-- Model of `bytes.decode("utf-8")` on a text modelled by its UTF-8
bytes: succeeds exactly on valid sequences, returning them unchanged. -/
def utf8Decode (b : Bytes) : Option Bytes :=
  if utf8Valid b then some b else none

theorem utf8SeqOk_length {l rest : Bytes} (h : utf8SeqOk l = some rest) :
    rest.length < l.length := by
  match l with
  | [] => simp [utf8SeqOk] at h
  | b :: r =>
    simp only [utf8SeqOk] at h
    split at h
    · cases h; simp
    · split at h
      · match r with
        | [] => cases h
        | c1 :: r' =>
            simp only at h
            split at h
            · cases h; simp; omega
            · cases h
      · split at h
        · match r with
          | [] => cases h
          | [c1] => cases h
          | c1 :: c2 :: r' =>
              simp only at h
              split at h
              · cases h; simp; omega
              · cases h
        · split at h
          · match r with
            | [] => cases h
            | [c1] => cases h
            | [c1, c2] => cases h
            | c1 :: c2 :: c3 :: r' =>
                simp only at h
                split at h
                · cases h; simp; omega
                · cases h
          · cases h

theorem utf8ValidFuel_fuel_irrel (f1 : Nat) :
    ∀ (f2 : Nat) (l : Bytes), l.length ≤ f1 → l.length ≤ f2 →
      utf8ValidFuel f1 l = utf8ValidFuel f2 l := by
  induction f1 with
  | zero =>
      intro f2 l h1 _
      match l with
      | [] => cases f2 <;> rfl
      | b :: r => simp at h1
  | succ f1' ih =>
      intro f2 l h1 h2
      match l with
      | [] => cases f2 <;> rfl
      | b :: r =>
        match f2 with
        | 0 => simp at h2
        | f2' + 1 =>
          show (match utf8SeqOk (b :: r) with
                | some rest => utf8ValidFuel f1' rest
                | none => false) =
               (match utf8SeqOk (b :: r) with
                | some rest => utf8ValidFuel f2' rest
                | none => false)
          cases hseq : utf8SeqOk (b :: r) with
          | none => rfl
          | some rest =>
              have hlen := utf8SeqOk_length hseq
              simp only
              exact ih f2' rest (by simp at h1 hlen ⊢; omega) (by simp at h2 hlen ⊢; omega)

/-- An ASCII byte (≤ 127) at the head of a valid sequence is one
character; the rest must be valid. -/
theorem utf8Valid_cons_ascii {b : Nat} (hb : b ≤ 127) (r : Bytes) :
    utf8Valid (b :: r) = utf8Valid r := by
  have hseq : utf8SeqOk (b :: r) = some r := by simp [utf8SeqOk, hb]
  show utf8ValidFuel (r.length + 1) (b :: r) = utf8Valid r
  show (match utf8SeqOk (b :: r) with
        | some rest => utf8ValidFuel r.length rest
        | none => false) = utf8Valid r
  rw [hseq]
  rfl

/-- A byte sequence starting with the two gzip magic bytes is not valid
UTF-8: `139` is a continuation byte and cannot follow the ASCII `31`. -/
theorem utf8Valid_gzipMagic (r : Bytes) :
    utf8Valid (gzipMagicBytes ++ r) = false := by
  show utf8Valid (31 :: 139 :: r) = false
  rw [utf8Valid_cons_ascii (by norm_num)]
  have hseq : utf8SeqOk (139 :: r) = none := by simp [utf8SeqOk]
  show utf8ValidFuel (r.length + 1) (139 :: r) = false
  show (match utf8SeqOk (139 :: r) with
        | some rest => utf8ValidFuel r.length rest
        | none => false) = false
  rw [hseq]

/-- Stripping the ASCII marker `gzip:` preserves UTF-8 validity. -/
theorem utf8Valid_marker (r : Bytes) :
    utf8Valid (markerCompressed ++ r) = utf8Valid r := by
  show utf8Valid (103 :: 122 :: 105 :: 112 :: 58 :: r) = utf8Valid r
  rw [utf8Valid_cons_ascii (by norm_num), utf8Valid_cons_ascii (by norm_num),
    utf8Valid_cons_ascii (by norm_num), utf8Valid_cons_ascii (by norm_num),
    utf8Valid_cons_ascii (by norm_num)]

/-- On a valid UTF-8 text that begins with the `gzip:` marker bytes, the
bytes after the marker can never form a gzip stream: the gzip magic is
not valid UTF-8 at a character boundary. -/
theorem gzipDecompress_fails_on_marker_tail {rest : Bytes}
    (h : utf8Valid (markerCompressed ++ rest) = true) :
    gzipDecompressBytes rest = none := by
  unfold gzipDecompressBytes
  rw [if_neg]
  intro hpre
  rw [List.isPrefixOf_iff_prefix] at hpre
  obtain ⟨t, ht⟩ := hpre
  rw [utf8Valid_marker] at h
  rw [← ht, utf8Valid_gzipMagic] at h
  cases h

/-! ## Meta record and its JSON wire format

The source stores `json.dumps({"chunks": n, "orig_bytes": o,
"stored_bytes": s, "compressed": b}).encode("utf-8")` under the meta key
and parses it back with `json.loads`.  `metaEncode` produces exactly that
byte string (`json.dumps` default separators, Python dict insertion
order); `metaDecode` parses exactly the strings this module writes, and
fails on garbage, which is all `json.loads` fidelity the claims use. -/

structure MetaRec where
  chunks : Nat
  origBytes : Nat
  storedBytes : Nat
  compressed : Bool
deriving DecidableEq

/-- Big-endian decimal digit bytes of `n`, structurally recursive on a
fuel argument so that it evaluates in the kernel; any fuel with
`n < 10 ^ fuel` gives the digits of `n` (`natDigitsGo_fuel_irrel`). -/
def natDigitsGo : Nat → Nat → Bytes → Bytes
  | 0, _, acc => acc
  | fuel + 1, n, acc =>
    if n < 10 then (48 + n) :: acc
    else natDigitsGo fuel (n / 10) ((48 + n % 10) :: acc)

/-- ASCII decimal rendering of `n`, as `repr`/`json.dumps` produce it. -/
def natToDigitBytes (n : Nat) : Bytes := natDigitsGo (n + 1) n []

def isDigitByte (b : Nat) : Bool := 48 ≤ b && b ≤ 57

/-- Value of a big-endian ASCII digit string. -/
def digitsVal (l : Bytes) : Nat := l.foldl (fun a b => a * 10 + (b - 48)) 0

/-- Parse a leading decimal number, returning it and the rest. -/
def parseNatBytes (l : Bytes) : Option (Nat × Bytes) :=
  let ds := l.takeWhile isDigitByte
  if ds = [] then none else some (digitsVal ds, l.dropWhile isDigitByte)

/-- Drop an expected literal byte string from the front, or fail. -/
def stripLit (lit l : Bytes) : Option Bytes :=
  if lit.isPrefixOf l then some (l.drop lit.length) else none

def litChunks : Bytes := [123, 34, 99, 104, 117, 110, 107, 115, 34, 58, 32]
def litOrig : Bytes := [44, 32, 34, 111, 114, 105, 103, 95, 98, 121, 116, 101, 115, 34, 58, 32]
def litStored : Bytes := [44, 32, 34, 115, 116, 111, 114, 101, 100, 95, 98, 121, 116, 101, 115, 34, 58, 32]
def litCompressed : Bytes := [44, 32, 34, 99, 111, 109, 112, 114, 101, 115, 115, 101, 100, 34, 58, 32]
def litTrue : Bytes := [116, 114, 117, 101]
def litFalse : Bytes := [102, 97, 108, 115, 101]
def litClose : Bytes := [125]

def metaEncode (m : MetaRec) : Bytes :=
  litChunks ++ natToDigitBytes m.chunks ++
  litOrig ++ natToDigitBytes m.origBytes ++
  litStored ++ natToDigitBytes m.storedBytes ++
  litCompressed ++ (if m.compressed then litTrue else litFalse) ++ litClose

def parseBoolBytes (l : Bytes) : Option (Bool × Bytes) :=
  match stripLit litTrue l with
  | some r => some (true, r)
  | none =>
    match stripLit litFalse l with
    | some r => some (false, r)
    | none => none

def metaDecode (l : Bytes) : Option MetaRec :=
  match stripLit litChunks l with
  | none => none
  | some r1 =>
    match parseNatBytes r1 with
    | none => none
    | some (n, r2) =>
      match stripLit litOrig r2 with
      | none => none
      | some r3 =>
        match parseNatBytes r3 with
        | none => none
        | some (o, r4) =>
          match stripLit litStored r4 with
          | none => none
          | some r5 =>
            match parseNatBytes r5 with
            | none => none
            | some (sb, r6) =>
              match stripLit litCompressed r6 with
              | none => none
              | some r7 =>
                match parseBoolBytes r7 with
                | none => none
                | some (c, r8) =>
                  match stripLit litClose r8 with
                  | none => none
                  | some r9 => if r9 = [] then some ⟨n, o, sb, c⟩ else none

theorem stripLit_append (lit r : Bytes) : stripLit lit (lit ++ r) = some r := by
  simp [stripLit, List.isPrefixOf_iff_prefix, List.prefix_append, List.drop_left]

theorem natDigitsGo_acc (fuel : Nat) :
    ∀ (n : Nat) (acc : Bytes), natDigitsGo fuel n acc = natDigitsGo fuel n [] ++ acc := by
  induction fuel with
  | zero => intro n acc; rfl
  | succ f ih =>
      intro n acc
      by_cases h : n < 10
      · simp [natDigitsGo, h]
      · rw [natDigitsGo, if_neg h, natDigitsGo, if_neg h]
        rw [ih (n / 10) ((48 + n % 10) :: acc), ih (n / 10) [48 + n % 10]]
        simp

theorem natDigitsGo_fuel_irrel (f1 : Nat) :
    ∀ (f2 n : Nat), n < 10 ^ f1 → n < 10 ^ f2 → 0 < f1 → 0 < f2 →
      natDigitsGo f1 n [] = natDigitsGo f2 n [] := by
  induction f1 with
  | zero => intro _ _ _ _ h; omega
  | succ f1' ih =>
      intro f2 n h1 h2 _ hf2
      match f2 with
      | 0 => omega
      | f2' + 1 =>
        by_cases h : n < 10
        · rw [natDigitsGo, if_pos h, natDigitsGo, if_pos h]
        · rw [natDigitsGo, if_neg h, natDigitsGo, if_neg h]
          rw [natDigitsGo_acc f1', natDigitsGo_acc f2']
          have hd1 : n / 10 < 10 ^ f1' := by
            rw [Nat.div_lt_iff_lt_mul (by norm_num)]
            calc n < 10 ^ (f1' + 1) := h1
            _ = 10 ^ f1' * 10 := by ring
          have hd2 : n / 10 < 10 ^ f2' := by
            rw [Nat.div_lt_iff_lt_mul (by norm_num)]
            calc n < 10 ^ (f2' + 1) := h2
            _ = 10 ^ f2' * 10 := by ring
          have hf1' : 0 < f1' := by
            by_contra hc
            have : f1' = 0 := by omega
            subst this
            simp at hd1
            omega
          have hf2' : 0 < f2' := by
            by_contra hc
            have : f2' = 0 := by omega
            subst this
            simp at hd2
            omega
          rw [ih f2' (n / 10) hd1 hd2 hf1' hf2']

theorem natDigitsGo_all_digits (fuel : Nat) :
    ∀ (n : Nat) (acc : Bytes), (∀ b ∈ acc, isDigitByte b = true) →
      ∀ b ∈ natDigitsGo fuel n acc, isDigitByte b = true := by
  induction fuel with
  | zero => intro n acc hacc; exact hacc
  | succ f ih =>
      intro n acc hacc b hb
      by_cases h : n < 10
      · rw [natDigitsGo, if_pos h] at hb
        rcases List.mem_cons.mp hb with h1 | h1
        · subst h1; simp [isDigitByte]; omega
        · exact hacc b h1
      · rw [natDigitsGo, if_neg h] at hb
        refine ih (n / 10) ((48 + n % 10) :: acc) ?_ b hb
        intro b' hb'
        rcases List.mem_cons.mp hb' with h1 | h1
        · subst h1
          simp [isDigitByte]
          omega
        · exact hacc b' h1

theorem natToDigitBytes_all_digits (n : Nat) :
    ∀ b ∈ natToDigitBytes n, isDigitByte b = true :=
  natDigitsGo_all_digits (n + 1) n [] (by intro b hb; cases hb)

theorem natDigitsGo_len (fuel : Nat) :
    ∀ (n : Nat) (acc : Bytes), acc.length ≤ (natDigitsGo fuel n acc).length := by
  induction fuel with
  | zero => intro n acc; exact Nat.le_refl _
  | succ f ih =>
      intro n acc
      by_cases h : n < 10
      · rw [natDigitsGo, if_pos h]; simp
      · rw [natDigitsGo, if_neg h]
        calc acc.length ≤ ((48 + n % 10) :: acc).length := by simp
        _ ≤ _ := ih (n / 10) _

theorem natToDigitBytes_ne_nil (n : Nat) : natToDigitBytes n ≠ [] := by
  unfold natToDigitBytes
  intro hc
  by_cases h : n < 10
  · rw [natDigitsGo, if_pos h] at hc
    cases hc
  · rw [natDigitsGo, if_neg h] at hc
    have := natDigitsGo_len n (n / 10) [48 + n % 10]
    rw [hc] at this
    simp at this

theorem digitsVal_append_single (l : Bytes) (d : Nat) :
    digitsVal (l ++ [d]) = digitsVal l * 10 + (d - 48) := by
  simp [digitsVal, List.foldl_append]

theorem digitsVal_natToDigitBytes (n : Nat) : digitsVal (natToDigitBytes n) = n := by
  induction n using Nat.strong_induction_on with
  | _ n ih =>
      by_cases h : n < 10
      · show digitsVal (natDigitsGo (n + 1) n []) = n
        rw [natDigitsGo, if_pos h]
        simp [digitsVal]
      · show digitsVal (natDigitsGo (n + 1) n []) = n
        rw [natDigitsGo, if_neg h]
        rw [natDigitsGo_acc]
        have hq : n / 10 < n := Nat.div_lt_self (by omega) (by norm_num)
        have hq10 : n / 10 < 10 ^ (n / 10 + 1) :=
          Nat.lt_trans (Nat.lt_pow_self (by norm_num) _) (Nat.pow_lt_pow_right (by norm_num) (by omega))
        have hn10 : n / 10 < 10 ^ n := by
          calc n / 10 < n := hq
          _ < 10 ^ n := Nat.lt_pow_self (by norm_num) n
        have hfi := natDigitsGo_fuel_irrel n (n / 10 + 1) (n / 10) hn10 hq10 (by omega) (by omega)
        rw [hfi]
        have := ih (n / 10) hq
        unfold natToDigitBytes at this
        rw [digitsVal_append_single, this]
        omega

theorem takeWhile_append_all {p : Nat → Bool} {l1 : Bytes} (l2 : Bytes)
    (h : ∀ b ∈ l1, p b = true) :
    (l1 ++ l2).takeWhile p = l1 ++ l2.takeWhile p := by
  induction l1 with
  | nil => simp
  | cons b r ih =>
      have hb : p b = true := h b (List.mem_cons_self _ _)
      rw [List.cons_append, List.takeWhile_cons_of_pos hb,
        ih (fun b' hb' => h b' (List.mem_cons_of_mem _ hb'))]
      rfl

theorem dropWhile_append_all {p : Nat → Bool} {l1 : Bytes} (l2 : Bytes)
    (h : ∀ b ∈ l1, p b = true) :
    (l1 ++ l2).dropWhile p = l2.dropWhile p := by
  induction l1 with
  | nil => simp
  | cons b r ih =>
      have hb : p b = true := h b (List.mem_cons_self _ _)
      rw [List.cons_append, List.dropWhile_cons_of_pos hb,
        ih (fun b' hb' => h b' (List.mem_cons_of_mem _ hb'))]

/-- Parsing a rendered number followed by a non-digit suffix yields the
number and the suffix. -/
theorem parseNatBytes_round (n : Nat) (r : Bytes)
    (hr : ∀ b, r.head? = some b → isDigitByte b = false) :
    parseNatBytes (natToDigitBytes n ++ r) = some (n, r) := by
  have hall := natToDigitBytes_all_digits n
  have htail : r.takeWhile isDigitByte = [] ∧ r.dropWhile isDigitByte = r := by
    match r with
    | [] => simp
    | b :: r' =>
        have := hr b rfl
        simp [List.takeWhile_cons, List.dropWhile_cons, this]
  unfold parseNatBytes
  rw [takeWhile_append_all _ hall, dropWhile_append_all _ hall, htail.1, htail.2]
  rw [List.append_nil]
  rw [if_neg (natToDigitBytes_ne_nil n)]
  rw [digitsVal_natToDigitBytes]

theorem parseBoolBytes_round (b : Bool) (r : Bytes) :
    parseBoolBytes ((if b then litTrue else litFalse) ++ r) = some (b, r) := by
  cases b
  · have h1 : stripLit litTrue (litFalse ++ r) = none := by
      unfold stripLit litTrue litFalse
      rw [if_neg]
      intro hc
      rw [List.isPrefixOf_iff_prefix] at hc
      obtain ⟨t, ht⟩ := hc
      simp at ht
    simp only [Bool.false_eq_true, if_false, parseBoolBytes, h1, stripLit_append]
  · simp only [if_true, parseBoolBytes, stripLit_append]

theorem stripLit_self (l : Bytes) : stripLit l l = some [] := by
  simp [stripLit, List.isPrefixOf_iff_prefix, List.drop_length]

theorem metaDecode_metaEncode (m : MetaRec) : metaDecode (metaEncode m) = some m := by
  obtain ⟨n, o, sb, c⟩ := m
  have hOrig : ∀ (X : Bytes) (b : Nat), (litOrig ++ X).head? = some b → isDigitByte b = false := by
    intro X b hb
    simp [litOrig] at hb
    subst hb
    rfl
  have hStored : ∀ (X : Bytes) (b : Nat), (litStored ++ X).head? = some b → isDigitByte b = false := by
    intro X b hb
    simp [litStored] at hb
    subst hb
    rfl
  have hComp : ∀ (X : Bytes) (b : Nat), (litCompressed ++ X).head? = some b → isDigitByte b = false := by
    intro X b hb
    simp [litCompressed] at hb
    subst hb
    rfl
  unfold metaDecode metaEncode
  simp only [List.append_assoc]
  rw [stripLit_append]
  dsimp only
  rw [parseNatBytes_round n _ (hOrig _)]
  dsimp only
  rw [stripLit_append]
  dsimp only
  rw [parseNatBytes_round o _ (hStored _)]
  dsimp only
  rw [stripLit_append]
  dsimp only
  rw [parseNatBytes_round sb _ (hComp _)]
  dsimp only
  rw [stripLit_append]
  dsimp only
  rw [parseBoolBytes_round]
  dsimp only
  rw [stripLit_self]
  dsimp only
  rfl

theorem metaEncode_ne_nil (m : MetaRec) : metaEncode m ≠ [] := by
  unfold metaEncode litChunks
  simp

/-! ## Replacement decoding and token counting (previews only)

Models `bytes.decode("utf-8", errors="replace")` and `str.split()` for
the best-effort previews of `build_chunks_from_redis`.  Invalid bytes
are replaced by U+FFFD (bytes `EF BF BD`) one byte at a time, and
whitespace is modelled as the ASCII whitespace bytes; no claim
constrains preview contents. -/

def utf8ReplaceFuel : Nat → Bytes → Bytes
  | _, [] => []
  | 0, _ :: _ => []
  | fuel + 1, b :: r =>
    match utf8SeqOk (b :: r) with
    | some rest => ((b :: r).take ((b :: r).length - rest.length)) ++ utf8ReplaceFuel fuel rest
    | none => 239 :: 191 :: 189 :: utf8ReplaceFuel fuel r

def utf8DecodeReplace (l : Bytes) : Bytes := utf8ReplaceFuel l.length l

def isSpaceByte (b : Nat) : Bool :=
  b = 32 || b = 9 || b = 10 || b = 13 || b = 12 || b = 11

def countTokensGo : Bytes → Bool → Nat
  | [], _ => 0
  | b :: r, inTok =>
    if isSpaceByte b then countTokensGo r false
    else if inTok then countTokensGo r true
    else 1 + countTokensGo r true

/-- Number of whitespace-separated tokens, `len(text.split())`. -/
def countTokens (l : Bytes) : Nat := countTokensGo l false

/-! ## The document text store state machine -/

/-- The module-level configuration read from the environment:
`DOC_TTL_SECONDS`, `COMPRESS_THRESHOLD`, `REDIS_CHUNK_SIZE`,
`REDIS_MAX_SINGLE`. -/
structure Config where
  docTtlSeconds : Nat
  compressThreshold : Nat
  chunkSize : Nat
  maxSingleKey : Nat
deriving DecidableEq

/-- Injected backend failures: `single` makes the single-key `setex`
report failure, `chunk` makes the chunked pipeline `execute()` raise
(writing nothing).  `noFail` is a fully healthy backend. -/
structure Fail where
  single : Bool
  chunk : Bool
deriving DecidableEq

def noFail : Fail := ⟨false, false⟩

/-- Process state: the optional remote Redis key space (`REDIS is None`
when unconfigured) and the in-process `DOC_STORE` fallback map from
identifier to `(timestamp, text)`. -/
structure St where
  redis : Option Store
  docStore : KV String (Nat × Bytes)
deriving DecidableEq

/-- The `compressed` flag computed by `put_doc_text`:
`COMPRESS_THRESHOLD and size >= COMPRESS_THRESHOLD` (a zero threshold is
falsy in Python, so it disables compression). -/
def isCompressedFlag (cfg : Config) (text : Bytes) : Bool :=
  decide (cfg.compressThreshold ≠ 0 ∧ cfg.compressThreshold ≤ text.length)

/-- The `to_store` payload of `put_doc_text`. -/
def toStoredBytes (cfg : Config) (text : Bytes) : Bytes :=
  if isCompressedFlag cfg text then gzipCompressBytes text else text

/-- The single-key value: `_MARKER_COMPRESSED + to_store if compressed
else to_store`. -/
def singlePayload (cfg : Config) (text : Bytes) : Bytes :=
  if isCompressedFlag cfg text then markerCompressed ++ toStoredBytes cfg text
  else toStoredBytes cfg text

/-- `math.ceil(len(payload) / _CHUNK_SIZE)` on naturals (caller
guarantees `chunkSize ≠ 0`; Python raises on zero, which the model
routes to the same fallback as a pipeline failure). -/
def chunkCount (cfg : Config) (payload : Bytes) : Nat :=
  (payload.length + cfg.chunkSize - 1) / cfg.chunkSize

/-- The half-open byte range `[i*C, i*C + C)` of the payload. -/
def chunkSlice (payload : Bytes) (c i : Nat) : Bytes :=
  (payload.drop (i * c)).take c

/-- Pipeline loop of the chunked path: `setex` of chunks `0 .. n-1` in
index order. -/
def writeChunks (s : Store) (id : String) (payload : Bytes) (c : Nat) : Nat → Store
  | 0 => s
  | n + 1 => kvSet (writeChunks s id payload c n) (RKey.chunk id n) (chunkSlice payload c n)

/-- The meta dict `{"chunks": n, "orig_bytes": size, "stored_bytes":
len(gz_bytes), "compressed": bool(compressed)}`. -/
def metaFor (cfg : Config) (text : Bytes) : MetaRec :=
  ⟨chunkCount cfg (toStoredBytes cfg text), text.length,
    (toStoredBytes cfg text).length, isCompressedFlag cfg text⟩

/-- `put_doc_text(doc_id, text)`: reject empty id; fallback-map path when
Redis is unconfigured; single-key path when the payload fits and the
`setex` succeeds (then best-effort delete of the stale meta key);
otherwise the chunked pipeline, whose failure (or a zero chunk size,
which raises `ZeroDivisionError` in the source) falls back to the
in-process map and still returns `True`. -/
def put_doc_text (cfg : Config) (fl : Fail) (st : St) (now : Nat) (docId : String)
    (text : Bytes) : Bool × St :=
  if docId = "" then (false, st)
  else
    match st.redis with
    | none => (true, { st with docStore := kvSet st.docStore docId (now, text) })
    | some s =>
      let toStore := toStoredBytes cfg text
      if toStore.length ≤ cfg.maxSingleKey ∧ fl.single = false then
        let s1 := kvErase (kvSet s (RKey.doc docId) (singlePayload cfg text)) (RKey.meta docId)
        (true, { st with redis := some s1 })
      else
        if fl.chunk = true ∨ cfg.chunkSize = 0 then
          (true, { st with docStore := kvSet st.docStore docId (now, text) })
        else
          let n := chunkCount cfg toStore
          let s2 := writeChunks s docId toStore cfg.chunkSize n
          let s3 := kvSet s2 (RKey.meta docId) (metaEncode (metaFor cfg text))
          (true, { st with redis := some s3 })

/-- Chunk-fetch loop of `_decode_redis_value`: all of chunks `0 .. n-1`
collected in index order, or `none` when any is missing. -/
def fetchChunks (s : Store) (id : String) : Nat → Option (List Bytes)
  | 0 => some []
  | n + 1 =>
    match fetchChunks s id n, kvGet s (RKey.chunk id n) with
    | some cs, some c => some (cs ++ [c])
    | _, _ => none

/-- `_decode_redis_value(raw_val, doc_id)`: on `raw_val is None` attempt
chunked reassembly from the meta record (any missing chunk, unparseable
meta, failed decompression or undecodable bytes yield `""`); otherwise
strip the `gzip:` marker and decompress, falling back to decoding the
raw bytes when decompression or decoding of the decompressed bytes
fails. -/
def decodeRedisValue (redis : Option Store) (rawVal : Option Bytes)
    (docId : Option String) : Bytes :=
  match rawVal with
  | none =>
    match docId, redis with
    | some id, some s =>
      if id = "" then []
      else
        match kvGet s (RKey.meta id) with
        | none => []
        | some mv =>
          if mv = [] then []
          else
            match metaDecode mv with
            | none => []
            | some m =>
              match fetchChunks s id m.chunks with
              | none => []
              | some cs =>
                if m.compressed then
                  match gzipDecompressBytes cs.flatten with
                  | some raw => (utf8Decode raw).getD []
                  | none => []
                else (utf8Decode cs.flatten).getD []
    | _, _ => []
  | some rawBytes =>
    if markerCompressed.isPrefixOf rawBytes then
      match gzipDecompressBytes (rawBytes.drop markerCompressed.length) with
      | some d =>
        match utf8Decode d with
        | some t => t
        | none => (utf8Decode rawBytes).getD []
      | none => (utf8Decode rawBytes).getD []
    else (utf8Decode rawBytes).getD []

/-- `get_doc_text(doc_id)`: single-key read and decode (covering chunked
reassembly when the single key is absent); a falsy (empty) result falls
through to the fallback map, whose TTL is checked lazily and whose
expired entries are evicted. -/
def get_doc_text (cfg : Config) (st : St) (now : Nat) (docId : String) : Bytes × St :=
  if docId = "" then ([], st)
  else
    let result := match st.redis with
      | some s => decodeRedisValue (some s) (kvGet s (RKey.doc docId)) (some docId)
      | none => []
    if result ≠ [] then (result, st)
    else
      match kvGet st.docStore docId with
      | some (ts, txt) =>
          if cfg.docTtlSeconds < now - ts then
            ([], { st with docStore := kvErase st.docStore docId })
          else (txt, st)
      | none => ([], st)

/-- Chunk deletion when the meta record parsed: delete keys
`chunk:0 .. chunk:(n-1)` in one call. -/
def delChunkRange (s : Store) (id : String) : Nat → Store
  | 0 => s
  | n + 1 => kvErase (delChunkRange s id n) (RKey.chunk id n)

/-- Probe loop of `clear_doc`'s except-branch: delete chunk keys by
ascending index until a delete reports a missing key.  The fuel models
the unbounded `while True`; each successful delete removes a present
key, so `kvLen s + 1` steps always suffice. -/
def probeDeleteChunks (id : String) : Nat → Store → Nat → Store
  | 0, s, _ => s
  | fuel + 1, s, i =>
    if kvHas s (RKey.chunk id i) then
      probeDeleteChunks id fuel (kvErase s (RKey.chunk id i)) (i + 1)
    else s

/-- The Redis-side deletions of `clear_doc`: delete the single key; if
the meta value is truthy, delete the chunk keys it implies (probing
sequentially when it does not parse) and then the meta key itself. -/
def clearRedisKeys (s : Store) (id : String) : Store :=
  let s1 := kvErase s (RKey.doc id)
  match kvGet s1 (RKey.meta id) with
  | none => s1
  | some mv =>
    if mv = [] then s1
    else
      let s2 :=
        match metaDecode mv with
        | some m => delChunkRange s1 id m.chunks
        | none => probeDeleteChunks id (kvLen s1 + 1) s1 0
      kvErase s2 (RKey.meta id)

/-- `clear_doc(doc_id)`: reject empty id, delete the Redis keys, and
remove the fallback-map entry unconditionally. -/
def clear_doc (st : St) (docId : String) : Bool × St :=
  if docId = "" then (false, st)
  else
    let st1 := match st.redis with
      | none => st
      | some s => { st with redis := some (clearRedisKeys s docId) }
    (true, { st1 with docStore := kvErase st1.docStore docId })

/-- `redis_healthy()`: `False` when no client is configured; a
configured client's `ping` is modelled as succeeding. -/
def redis_healthy (st : St) : Bool :=
  match st.redis with
  | none => false
  | some _ => true

/-! ## Chunk metadata builder -/

/-- One row of the metadata list returned by `build_chunks_from_redis`
(keys `chunk_id`, `chunk_index`, `redis_key`, `stored_bytes`,
`text_preview`, `start_token`, `end_token`, `token_count`). -/
structure ChunkDesc where
  chunkId : Option String
  chunkIndex : Nat
  redisKey : String
  storedBytes : Nat
  textPreview : Option Bytes
  startToken : Option Nat
  endToken : Option Nat
  tokenCount : Option Nat
deriving DecidableEq

/-- The single-key descriptor, with its best-effort preview: a
compressed value is previewed only if decompression succeeds, a raw
value is previewed directly, and the token count of a raw preview is
`None` when the preview is falsy. -/
def singleKeyDesc (previewChars : Nat) (id : String) (raw : Bytes) : ChunkDesc :=
  let pv : Option Bytes × Option Nat :=
    if markerCompressed.isPrefixOf raw then
      match gzipDecompressBytes (raw.drop markerCompressed.length) with
      | some dec =>
        let p := utf8DecodeReplace (dec.take previewChars)
        (some p, some (countTokens p))
      | none => (none, none)
    else
      let p := utf8DecodeReplace (raw.take previewChars)
      (some p, if p ≠ [] then some (countTokens p) else none)
  ⟨none, 0, renderKey (RKey.doc id), raw.length, pv.1, none, none, pv.2⟩

/-- The descriptor of chunk `i`: `stored_bytes` is 0 for a missing
chunk, previews are taken from raw chunk bytes only when truthy. -/
def chunkDescAt (previewChars : Nat) (s : Store) (id : String) (i : Nat) : ChunkDesc :=
  let val := kvGet s (RKey.chunk id i)
  let storedBytes := match val with | some v => v.length | none => 0
  let pv : Option Bytes × Option Nat :=
    match val with
    | some v =>
      if v ≠ [] then
        let p := utf8DecodeReplace (v.take previewChars)
        (some p, if p ≠ [] then some (countTokens p) else none)
      else (none, none)
    | none => (none, none)
  ⟨none, i, renderKey (RKey.chunk id i), storedBytes, pv.1, none, none, pv.2⟩

/-- Probe loop of `build_chunks_from_redis`'s meta-less branch: count
chunk keys by ascending index while they exist.  Fuel as in
`probeDeleteChunks`. -/
def probeCountChunks (s : Store) (id : String) : Nat → Nat → Nat
  | 0, _ => 0
  | fuel + 1, i =>
    if kvHas s (RKey.chunk id i) then 1 + probeCountChunks s id fuel (i + 1) else 0

/-- `build_chunks_from_redis(doc_id, preview_chars)`: empty list for an
empty id or unconfigured Redis; one index-0 descriptor when the single
key exists; otherwise one descriptor per chunk in index order, the
count read from a truthy meta record (0 when it does not parse) or
probed sequentially when the meta record is falsy. -/
def build_chunks_from_redis (st : St) (previewChars : Nat) (docId : String) :
    List ChunkDesc :=
  if docId = "" then []
  else
    match st.redis with
    | none => []
    | some s =>
      match kvGet s (RKey.doc docId) with
      | some raw => [singleKeyDesc previewChars docId raw]
      | none =>
        let nChunks :=
          match kvGet s (RKey.meta docId) with
          | some mv =>
            if mv ≠ [] then
              match metaDecode mv with
              | some m => m.chunks
              | none => 0
            else
              if kvHas s (RKey.chunk docId 0) = false then 0
              else probeCountChunks s docId (kvLen s + 1) 0
          | none =>
            if kvHas s (RKey.chunk docId 0) = false then 0
            else probeCountChunks s docId (kvLen s + 1) 0
        (List.range nChunks).map (chunkDescAt previewChars s docId)

/-! ## Supporting lemmas about the operations -/

theorem writeChunks_get_other (s : Store) (id : String) (p : Bytes) (c : Nat) (n : Nat)
    (k : RKey) (hk : ∀ i, k ≠ RKey.chunk id i) :
    kvGet (writeChunks s id p c n) k = kvGet s k := by
  induction n with
  | zero => rfl
  | succ n ih =>
      rw [writeChunks, kvGet_set_ne _ _ _ _ (hk n), ih]

theorem writeChunks_get_lt (s : Store) (id : String) (p : Bytes) (c : Nat) :
    ∀ (n i : Nat), i < n →
      kvGet (writeChunks s id p c n) (RKey.chunk id i) = some (chunkSlice p c i) := by
  intro n
  induction n with
  | zero => intro i h; omega
  | succ n ih =>
      intro i h
      by_cases hi : i = n
      · subst hi
        rw [writeChunks, kvGet_set_self]
      · have : i < n := by omega
        rw [writeChunks, kvGet_set_ne, ih i this]
        intro hc
        cases hc
        exact hi rfl

theorem flatten_chunkSlices (c : Nat) (hc : 0 < c) :
    ∀ (n : Nat) (p : Bytes), p.length ≤ n * c →
      ((List.range n).map (chunkSlice p c)).flatten = p := by
  intro n
  induction n with
  | zero =>
      intro p hp
      simp at hp
      simp [hp]
  | succ n ih =>
      intro p hp
      rw [List.range_succ_eq_map]
      rw [List.map_cons, List.map_map, List.flatten_cons]
      have h0 : chunkSlice p c 0 = p.take c := by
        simp [chunkSlice]
      have hstep : (List.range n).map (chunkSlice p c ∘ Nat.succ) =
          (List.range n).map (chunkSlice (p.drop c) c) := by
        apply List.map_congr_left
        intro i _
        show chunkSlice p c (i + 1) = chunkSlice (p.drop c) c i
        unfold chunkSlice
        rw [List.drop_drop]
        congr 1
        congr 1
        ring
      have hlen : (p.drop c).length ≤ n * c := by
        have h1 : (n + 1) * c = n * c + c := by ring
        simp only [List.length_drop]
        omega
      rw [h0, hstep, ih (p.drop c) hlen]
      exact List.take_append_drop c p

theorem length_le_chunkCount_mul (cfg : Config) (hc : 0 < cfg.chunkSize) (p : Bytes) :
    p.length ≤ chunkCount cfg p * cfg.chunkSize := by
  unfold chunkCount
  have hdm := Nat.div_add_mod (p.length + cfg.chunkSize - 1) cfg.chunkSize
  have hmod : (p.length + cfg.chunkSize - 1) % cfg.chunkSize < cfg.chunkSize :=
    Nat.mod_lt _ hc
  have hcomm : cfg.chunkSize * ((p.length + cfg.chunkSize - 1) / cfg.chunkSize) =
      ((p.length + cfg.chunkSize - 1) / cfg.chunkSize) * cfg.chunkSize := Nat.mul_comm _ _
  omega

theorem fetchChunks_all (s : Store) (id : String) (f : Nat → Bytes) :
    ∀ (n : Nat), (∀ i, i < n → kvGet s (RKey.chunk id i) = some (f i)) →
      fetchChunks s id n = some ((List.range n).map f) := by
  intro n
  induction n with
  | zero => intro _; rfl
  | succ n ih =>
      intro h
      rw [fetchChunks, ih (fun i hi => h i (by omega)), h n (by omega)]
      rw [List.range_succ, List.map_append]
      rfl

theorem fetchChunks_missing (s : Store) (id : String) :
    ∀ (n i : Nat), i < n → kvGet s (RKey.chunk id i) = none →
      fetchChunks s id n = none := by
  intro n
  induction n with
  | zero => intro i h; omega
  | succ n ih =>
      intro i h hmiss
      by_cases hi : i = n
      · subst hi
        rw [fetchChunks, hmiss]
        cases fetchChunks s id i <;> rfl
      · rw [fetchChunks, ih i (by omega) hmiss]

/-- Decoding the single-key payload written for a valid UTF-8 text
recovers the text: the compressed marker path decompresses exactly, and
a raw text that itself begins with the marker bytes survives because the
gzip magic cannot follow the marker inside valid UTF-8. -/
theorem decodeRedisValue_singlePayload (cfg : Config) (redis : Option Store)
    (docId : Option String) (t : Bytes) (ht : utf8Valid t = true) :
    decodeRedisValue redis (some (singlePayload cfg t)) docId = t := by
  unfold singlePayload toStoredBytes
  by_cases hcomp : isCompressedFlag cfg t = true
  · rw [if_pos hcomp, if_pos hcomp]
    unfold decodeRedisValue
    dsimp only
    rw [if_pos (by rw [List.isPrefixOf_iff_prefix]; exact List.prefix_append _ _)]
    rw [List.drop_left' rfl]
    rw [gzip_roundtrip]
    simp only [utf8Decode, ht, if_true]
  · rw [if_neg hcomp, if_neg hcomp]
    unfold decodeRedisValue
    dsimp only
    by_cases hmark : markerCompressed.isPrefixOf t
    · rw [if_pos hmark]
      rw [List.isPrefixOf_iff_prefix] at hmark
      obtain ⟨rest, hrest⟩ := hmark
      have hfail : gzipDecompressBytes (t.drop markerCompressed.length) = none := by
        rw [← hrest, List.drop_left' rfl]
        exact gzipDecompress_fails_on_marker_tail (by rw [hrest]; exact ht)
      rw [hfail]
      simp only [utf8Decode, ht, if_true, Option.getD_some]
    · rw [if_neg hmark]
      simp only [utf8Decode, ht, if_true, Option.getD_some]

theorem put_empty_state (cfg : Config) (fl : Fail) (st : St) (now : Nat) (t : Bytes) :
    put_doc_text cfg fl st now "" t = (false, st) := by
  unfold put_doc_text
  rw [if_pos rfl]

theorem put_fallback_state (cfg : Config) (fl : Fail) (st : St) (now : Nat)
    (docId : String) (t : Bytes) (hid : docId ≠ "") (hr : st.redis = none) :
    put_doc_text cfg fl st now docId t =
      (true, { st with docStore := kvSet st.docStore docId (now, t) }) := by
  unfold put_doc_text
  rw [if_neg hid, hr]

theorem put_single_state (cfg : Config) (fl : Fail) (st : St) (now : Nat)
    (docId : String) (t : Bytes) (s : Store) (hid : docId ≠ "") (hr : st.redis = some s)
    (hfit : (toStoredBytes cfg t).length ≤ cfg.maxSingleKey) (hsf : fl.single = false) :
    put_doc_text cfg fl st now docId t =
      (true, { st with redis := (some
          (kvErase (kvSet s (RKey.doc docId) (singlePayload cfg t))
            (RKey.meta docId))) }) := by
  unfold put_doc_text
  rw [if_neg hid, hr]
  dsimp only
  rw [if_pos ⟨hfit, hsf⟩]

theorem put_chunkfail_state (cfg : Config) (fl : Fail) (st : St) (now : Nat)
    (docId : String) (t : Bytes) (s : Store) (hid : docId ≠ "") (hr : st.redis = some s)
    (hnosingle : ¬((toStoredBytes cfg t).length ≤ cfg.maxSingleKey ∧ fl.single = false))
    (hcf : fl.chunk = true ∨ cfg.chunkSize = 0) :
    put_doc_text cfg fl st now docId t =
      (true, { st with docStore := kvSet st.docStore docId (now, t) }) := by
  unfold put_doc_text
  rw [if_neg hid, hr]
  dsimp only
  rw [if_neg hnosingle, if_pos hcf]

theorem put_chunked_state (cfg : Config) (fl : Fail) (st : St) (now : Nat)
    (docId : String) (t : Bytes) (s : Store) (hid : docId ≠ "") (hr : st.redis = some s)
    (hnosingle : ¬((toStoredBytes cfg t).length ≤ cfg.maxSingleKey ∧ fl.single = false))
    (hcf : fl.chunk = false) (hcs : cfg.chunkSize ≠ 0) :
    put_doc_text cfg fl st now docId t =
      (true, { st with redis := (some (kvSet
          (writeChunks s docId (toStoredBytes cfg t) cfg.chunkSize
            (chunkCount cfg (toStoredBytes cfg t)))
          (RKey.meta docId) (metaEncode (metaFor cfg t)))) }) := by
  unfold put_doc_text
  rw [if_neg hid, hr]
  dsimp only
  rw [if_neg hnosingle, if_neg (by
    intro h
    rcases h with h | h
    · rw [hcf] at h
      cases h
    · exact hcs h)]

/-- Evaluation helper: when the Redis-side decode of `get_doc_text`
yields `t` and the fallback map has no entry, the returned text is `t`
(an empty `t` is falsy and falls through to the absent fallback). -/
theorem get_doc_text_of_result (cfg : Config) (st : St) (now : Nat) (docId : String)
    (t : Bytes) (hid : docId ≠ "")
    (hres : (match st.redis with
             | some s => decodeRedisValue (some s) (kvGet s (RKey.doc docId)) (some docId)
             | none => []) = t)
    (hds : kvGet st.docStore docId = none) :
    (get_doc_text cfg st now docId).1 = t := by
  unfold get_doc_text
  rw [if_neg hid]
  dsimp only
  rw [hres]
  by_cases htnil : t = []
  · subst htnil
    rw [if_neg (by simp), hds]
  · rw [if_pos htnil]

/-! ## Claim theorems -/

/-- C1: Round-trip.  For every non-empty identifier and every valid
UTF-8 text (empty included, and sizes on either side of the compression
and chunking thresholds included, since `t` and the configuration are
arbitrary), once `put_doc_text` returns `True`, `get_doc_text` returns
exactly the stored text.  The state hypotheses say that the identifier
does not carry conflicting leftovers: no stale single-key value and no
stale fallback-map entry (a subsequent write of either form supersedes
everything it overwrites; the behaviour on conflicting stale state is
the subject of C2). -/
theorem claim_C1_roundtrip (cfg : Config) (st : St) (now : Nat) (docId : String) (t : Bytes)
    (hid : docId ≠ "")
    (ht : utf8Valid t = true)
    (hds : kvGet st.docStore docId = none)
    (hdoc : ∀ s, st.redis = some s → kvGet s (RKey.doc docId) = none)
    (hcs : 0 < cfg.chunkSize) :
    (put_doc_text cfg noFail st now docId t).1 = true ∧
    (get_doc_text cfg (put_doc_text cfg noFail st now docId t).2 now docId).1 = t := by
  cases hredis : st.redis with
  | none =>
      rw [put_fallback_state cfg noFail st now docId t hid hredis]
      refine ⟨rfl, ?_⟩
      unfold get_doc_text
      rw [if_neg hid]
      dsimp only
      rw [hredis]
      dsimp only
      rw [if_neg (by simp), kvGet_set_self]
      dsimp only
      rw [if_neg (by omega)]
  | some s =>
      have hdoc' := hdoc s hredis
      by_cases hfit : (toStoredBytes cfg t).length ≤ cfg.maxSingleKey
      · -- single-key path
        rw [put_single_state cfg noFail st now docId t s hid hredis hfit rfl]
        refine ⟨rfl, ?_⟩
        dsimp only
        refine get_doc_text_of_result cfg _ now docId t hid ?_ hds
        dsimp only
        rw [kvGet_erase_ne _ _ _ (fun h => RKey.noConfusion h), kvGet_set_self]
        exact decodeRedisValue_singlePayload cfg _ _ t ht
      · -- chunked path
        rw [put_chunked_state cfg noFail st now docId t s hid hredis
          (by intro h; exact hfit h.1) rfl (by omega)]
        refine ⟨rfl, ?_⟩
        dsimp only
        refine get_doc_text_of_result cfg _ now docId t hid ?_ hds
        dsimp only
        set p := toStoredBytes cfg t with hp
        set n := chunkCount cfg p with hn
        set s2 := writeChunks s docId p cfg.chunkSize n with hs2
        have hdocKey : kvGet (kvSet s2 (RKey.meta docId) (metaEncode (metaFor cfg t)))
            (RKey.doc docId) = none := by
          rw [kvGet_set_ne _ _ _ _ (fun h => RKey.noConfusion h), hs2,
            writeChunks_get_other _ _ _ _ _ _ (fun i h => RKey.noConfusion h), hdoc']
        rw [hdocKey]
        unfold decodeRedisValue
        dsimp only
        rw [if_neg hid, kvGet_set_self]
        dsimp only
        rw [if_neg (metaEncode_ne_nil _), metaDecode_metaEncode]
        dsimp only
        have hchunks : ∀ i, i < (metaFor cfg t).chunks →
            kvGet (kvSet s2 (RKey.meta docId) (metaEncode (metaFor cfg t)))
              (RKey.chunk docId i) = some (chunkSlice p cfg.chunkSize i) := by
          intro i hi
          rw [kvGet_set_ne _ _ _ _ (fun h => RKey.noConfusion h), hs2]
          exact writeChunks_get_lt s docId p cfg.chunkSize n i hi
        rw [fetchChunks_all _ _ _ _ hchunks]
        dsimp only
        have hflat : ((List.range (metaFor cfg t).chunks).map
            (chunkSlice p cfg.chunkSize)).flatten = p := by
          show ((List.range n).map (chunkSlice p cfg.chunkSize)).flatten = p
          exact flatten_chunkSlices cfg.chunkSize hcs n p (length_le_chunkCount_mul cfg hcs p)
        rw [hflat]
        show (if (metaFor cfg t).compressed = true then _ else _) = t
        rw [show (metaFor cfg t).compressed = isCompressedFlag cfg t from rfl]
        by_cases hcomp : isCompressedFlag cfg t = true
        · rw [if_pos hcomp]
          have hpz : p = gzipCompressBytes t := by
            rw [hp]
            unfold toStoredBytes
            rw [if_pos hcomp]
          rw [hpz, gzip_roundtrip]
          simp only [utf8Decode, ht, if_true, Option.getD_some]
        · rw [if_neg hcomp]
          have hpz : p = t := by
            rw [hp]
            unfold toStoredBytes
            rw [if_neg hcomp]
          rw [hpz]
          simp only [utf8Decode, ht, if_true, Option.getD_some]

/-- C1 witness: a concrete put/get round-trip, one instance below the
compression threshold and single-key bound. -/
theorem claim_C1_roundtrip_witness :
    (put_doc_text ⟨100, 3, 2, 4⟩ noFail ⟨some [], []⟩ 0 "d" [104, 105]).1 = true ∧
    (get_doc_text ⟨100, 3, 2, 4⟩
      (put_doc_text ⟨100, 3, 2, 4⟩ noFail ⟨some [], []⟩ 0 "d" [104, 105]).2 0 "d").1 =
      [104, 105] :=
  claim_C1_roundtrip ⟨100, 3, 2, 4⟩ ⟨some [], []⟩ 0 "d" [104, 105]
    (by decide) (by decide) rfl (fun s hs => by cases hs; rfl) (by decide)

/-- C2 counterexample: the claim quantifies over both orders ("writing
one form supersedes the other ... or vice versa"), but the chunked
write path never deletes a stale single key.  Concretely (chunk size 2,
single-key bound 3): put `"a"` (single-key form), then put `"bbbb"`
(chunked form); both puts return `True`, yet `get` returns the stale
`"a"`, not the newest value `"bbbb"`. -/
theorem claim_C2_counterexample :
    (put_doc_text ⟨100, 50, 2, 3⟩ noFail
      (put_doc_text ⟨100, 50, 2, 3⟩ noFail ⟨some [], []⟩ 0 "d" [97]).2
      0 "d" [98, 98, 98, 98]).1 = true ∧
    (get_doc_text ⟨100, 50, 2, 3⟩
      (put_doc_text ⟨100, 50, 2, 3⟩ noFail
        (put_doc_text ⟨100, 50, 2, 3⟩ noFail ⟨some [], []⟩ 0 "d" [97]).2
        0 "d" [98, 98, 98, 98]).2 0 "d").1 = [97] ∧
    [97] ≠ [98, 98, 98, 98] := by
  refine ⟨by decide, by decide, by decide⟩

/-- C2 amended: writing the single-key form supersedes the chunked form
for the same identifier — the meta key is best-effort deleted, so after
a chunked write followed by a single-key write, `get_doc_text` returns
the new single-key value and `build_chunks_from_redis` reports exactly
the one single-key descriptor; the chunk payload keys themselves are
not deleted (they persist until TTL, exhibited by chunk 0).  In the
reverse order nothing supersedes: the chunked write leaves the stale
single key in place and `get_doc_text` returns the stale single-key
value. -/
theorem claim_C2_amended (cfg : Config) (st : St) (now : Nat) (docId : String)
    (tBig tSmall : Bytes) (s : Store) (pc : Nat)
    (hid : docId ≠ "") (hr : st.redis = some s)
    (hvalid : utf8Valid tSmall = true)
    (hfit : (toStoredBytes cfg tSmall).length ≤ cfg.maxSingleKey)
    (hbig : ¬(toStoredBytes cfg tBig).length ≤ cfg.maxSingleKey)
    (hcs : 0 < cfg.chunkSize)
    (hds : kvGet st.docStore docId = none) :
    (get_doc_text cfg (put_doc_text cfg noFail
        (put_doc_text cfg noFail st now docId tBig).2 now docId tSmall).2
      now docId).1 = tSmall ∧
    (put_doc_text cfg noFail (put_doc_text cfg noFail st now docId tBig).2
        now docId tSmall).2.redis.map (fun s2 => kvGet s2 (RKey.meta docId)) = some none ∧
    (build_chunks_from_redis (put_doc_text cfg noFail
        (put_doc_text cfg noFail st now docId tBig).2 now docId tSmall).2 pc docId).map
      (fun d => (d.chunkIndex, d.redisKey)) = [(0, renderKey (RKey.doc docId))] ∧
    (put_doc_text cfg noFail (put_doc_text cfg noFail st now docId tBig).2
        now docId tSmall).2.redis.map (fun s2 => kvGet s2 (RKey.chunk docId 0)) =
      some (some (chunkSlice (toStoredBytes cfg tBig) cfg.chunkSize 0)) ∧
    (get_doc_text cfg (put_doc_text cfg noFail
        (put_doc_text cfg noFail st now docId tSmall).2 now docId tBig).2
      now docId).1 = tSmall := by
  have h1 := put_chunked_state cfg noFail st now docId tBig s hid hr
    (fun h => hbig h.1) rfl (by omega)
  have hnpos : 0 < chunkCount cfg (toStoredBytes cfg tBig) := by
    by_contra hcon
    have h0 : chunkCount cfg (toStoredBytes cfg tBig) = 0 := by omega
    have hle := length_le_chunkCount_mul cfg hcs (toStoredBytes cfg tBig)
    rw [h0] at hle
    simp at hle
    exact hbig (by rw [hle]; simp)
  rw [h1]
  dsimp only
  have h2 := put_single_state cfg noFail
    { st with redis := (some (kvSet
        (writeChunks s docId (toStoredBytes cfg tBig) cfg.chunkSize
          (chunkCount cfg (toStoredBytes cfg tBig)))
        (RKey.meta docId) (metaEncode (metaFor cfg tBig)))) }
    now docId tSmall _ hid rfl hfit rfl
  rw [h2]
  dsimp only
  refine ⟨?_, ?_, ?_, ?_, ?_⟩
  · refine get_doc_text_of_result cfg _ now docId tSmall hid ?_ hds
    dsimp only
    rw [kvGet_erase_ne _ _ _ (fun h => RKey.noConfusion h), kvGet_set_self]
    exact decodeRedisValue_singlePayload cfg _ _ tSmall hvalid
  · dsimp only [Option.map]
    rw [kvGet_erase_self]
  · unfold build_chunks_from_redis
    rw [if_neg hid]
    dsimp only
    rw [kvGet_erase_ne _ _ _ (fun h => RKey.noConfusion h), kvGet_set_self]
    rfl
  · dsimp only [Option.map]
    rw [kvGet_erase_ne _ _ _ (fun h => RKey.noConfusion h),
      kvGet_set_ne _ _ _ _ (fun h => RKey.noConfusion h),
      kvGet_set_ne _ _ _ _ (fun h => RKey.noConfusion h),
      writeChunks_get_lt s docId _ cfg.chunkSize _ 0 hnpos]
  · have h3 := put_single_state cfg noFail st now docId tSmall s hid hr hfit rfl
    rw [h3]
    dsimp only
    have h4 := put_chunked_state cfg noFail
      { st with redis := (some
          (kvErase (kvSet s (RKey.doc docId) (singlePayload cfg tSmall))
            (RKey.meta docId))) }
      now docId tBig _ hid rfl (fun h => hbig h.1) rfl (by omega)
    rw [h4]
    dsimp only
    refine get_doc_text_of_result cfg _ now docId tSmall hid ?_ hds
    dsimp only
    rw [kvGet_set_ne _ _ _ _ (fun h => RKey.noConfusion h),
      writeChunks_get_other _ _ _ _ _ _ (fun i h => RKey.noConfusion h),
      kvGet_erase_ne _ _ _ (fun h => RKey.noConfusion h), kvGet_set_self]
    exact decodeRedisValue_singlePayload cfg _ _ tSmall hvalid

/-- C2 amended witness: the concrete two-order scenario at chunk size 2,
single-key bound 3, texts `"bbbb"` (chunked) and `"a"` (single). -/
theorem claim_C2_amended_witness :
    (get_doc_text ⟨100, 50, 2, 3⟩ (put_doc_text ⟨100, 50, 2, 3⟩ noFail
        (put_doc_text ⟨100, 50, 2, 3⟩ noFail ⟨some [], []⟩ 0 "d" [98, 98, 98, 98]).2
        0 "d" [97]).2 0 "d").1 = [97] ∧
    (put_doc_text ⟨100, 50, 2, 3⟩ noFail
        (put_doc_text ⟨100, 50, 2, 3⟩ noFail ⟨some [], []⟩ 0 "d" [98, 98, 98, 98]).2
        0 "d" [97]).2.redis.map (fun s2 => kvGet s2 (RKey.meta "d")) = some none ∧
    (build_chunks_from_redis (put_doc_text ⟨100, 50, 2, 3⟩ noFail
        (put_doc_text ⟨100, 50, 2, 3⟩ noFail ⟨some [], []⟩ 0 "d" [98, 98, 98, 98]).2
        0 "d" [97]).2 256 "d").map (fun d => (d.chunkIndex, d.redisKey)) =
      [(0, renderKey (RKey.doc "d"))] ∧
    (put_doc_text ⟨100, 50, 2, 3⟩ noFail
        (put_doc_text ⟨100, 50, 2, 3⟩ noFail ⟨some [], []⟩ 0 "d" [98, 98, 98, 98]).2
        0 "d" [97]).2.redis.map (fun s2 => kvGet s2 (RKey.chunk "d" 0)) =
      some (some (chunkSlice (toStoredBytes ⟨100, 50, 2, 3⟩ [98, 98, 98, 98]) 2 0)) ∧
    (get_doc_text ⟨100, 50, 2, 3⟩ (put_doc_text ⟨100, 50, 2, 3⟩ noFail
        (put_doc_text ⟨100, 50, 2, 3⟩ noFail ⟨some [], []⟩ 0 "d" [97]).2
        0 "d" [98, 98, 98, 98]).2 0 "d").1 = [97] :=
  claim_C2_amended ⟨100, 50, 2, 3⟩ ⟨some [], []⟩ 0 "d" [98, 98, 98, 98] [97] [] 256
    (by decide) rfl (by decide) (by decide) (by decide) (by decide) rfl

theorem chunkCount_pred_mul_lt (cfg : Config) (hc : 0 < cfg.chunkSize) (p : Bytes)
    (hp : 0 < p.length) :
    (chunkCount cfg p - 1) * cfg.chunkSize < p.length := by
  unfold chunkCount
  have h1 := Nat.div_mul_le_self (p.length + cfg.chunkSize - 1) cfg.chunkSize
  have h2 := Nat.sub_mul ((p.length + cfg.chunkSize - 1) / cfg.chunkSize) 1 cfg.chunkSize
  omega

/-- C3: Chunking layout.  With the (possibly compressed) payload
`to_store`: when it fits in `max_single_key_bytes` the put stores it as
the one single-key value; when it does not, the put stores a meta record
whose `chunks` field is `ceil(len / chunk_size_bytes)` and chunk values
`0 .. chunks-1` that are the contiguous slices of the payload in index
order, whose concatenation is the payload byte-for-byte (no overlap, no
gap, last chunk short).  The final two conjuncts are the ceiling
characterisation of the stored chunk count. -/
theorem claim_C3_chunking (cfg : Config) (st : St) (now : Nat) (docId : String)
    (t : Bytes) (s : Store)
    (hid : docId ≠ "") (hr : st.redis = some s) (hcs : 0 < cfg.chunkSize) :
    ((toStoredBytes cfg t).length ≤ cfg.maxSingleKey →
      (put_doc_text cfg noFail st now docId t).2.redis.map
        (fun s' => kvGet s' (RKey.doc docId)) = some (some (singlePayload cfg t))) ∧
    (¬(toStoredBytes cfg t).length ≤ cfg.maxSingleKey →
      (put_doc_text cfg noFail st now docId t).2.redis.map
          (fun s' => kvGet s' (RKey.meta docId)) =
        some (some (metaEncode (metaFor cfg t))) ∧
      (∀ i, i < chunkCount cfg (toStoredBytes cfg t) →
        (put_doc_text cfg noFail st now docId t).2.redis.map
            (fun s' => kvGet s' (RKey.chunk docId i)) =
          some (some (chunkSlice (toStoredBytes cfg t) cfg.chunkSize i))) ∧
      ((List.range (chunkCount cfg (toStoredBytes cfg t))).map
        (chunkSlice (toStoredBytes cfg t) cfg.chunkSize)).flatten = toStoredBytes cfg t) ∧
    (toStoredBytes cfg t).length ≤ chunkCount cfg (toStoredBytes cfg t) * cfg.chunkSize ∧
    (0 < (toStoredBytes cfg t).length →
      (chunkCount cfg (toStoredBytes cfg t) - 1) * cfg.chunkSize <
        (toStoredBytes cfg t).length) := by
  refine ⟨?_, ?_, length_le_chunkCount_mul cfg hcs _,
    chunkCount_pred_mul_lt cfg hcs _⟩
  · intro hfit
    rw [put_single_state cfg noFail st now docId t s hid hr hfit rfl]
    dsimp only [Option.map]
    rw [kvGet_erase_ne _ _ _ (fun h => RKey.noConfusion h), kvGet_set_self]
  · intro hbig
    rw [put_chunked_state cfg noFail st now docId t s hid hr (fun h => hbig h.1) rfl
      (by omega)]
    refine ⟨?_, ?_, ?_⟩
    · dsimp only [Option.map]
      rw [kvGet_set_self]
    · intro i hi
      dsimp only [Option.map]
      rw [kvGet_set_ne _ _ _ _ (fun h => RKey.noConfusion h),
        writeChunks_get_lt s docId _ cfg.chunkSize _ i hi]
    · exact flatten_chunkSlices cfg.chunkSize hcs _ _ (length_le_chunkCount_mul cfg hcs _)

/-- C3 witness: chunk size 2, single-key bound 3, 5-byte payload: stored
chunked with chunk count `ceil(5/2) = 3` and slices `bb / bb / b`. -/
theorem claim_C3_chunking_witness :
    ((toStoredBytes ⟨100, 50, 2, 3⟩ [98, 98, 98, 98, 98]).length ≤ 3 →
      (put_doc_text ⟨100, 50, 2, 3⟩ noFail ⟨some [], []⟩ 0 "d"
          [98, 98, 98, 98, 98]).2.redis.map
        (fun s' => kvGet s' (RKey.doc "d")) =
        some (some (singlePayload ⟨100, 50, 2, 3⟩ [98, 98, 98, 98, 98]))) ∧
    (¬(toStoredBytes ⟨100, 50, 2, 3⟩ [98, 98, 98, 98, 98]).length ≤ 3 →
      (put_doc_text ⟨100, 50, 2, 3⟩ noFail ⟨some [], []⟩ 0 "d"
          [98, 98, 98, 98, 98]).2.redis.map
          (fun s' => kvGet s' (RKey.meta "d")) =
        some (some (metaEncode (metaFor ⟨100, 50, 2, 3⟩ [98, 98, 98, 98, 98]))) ∧
      (∀ i, i < chunkCount ⟨100, 50, 2, 3⟩ (toStoredBytes ⟨100, 50, 2, 3⟩ [98, 98, 98, 98, 98]) →
        (put_doc_text ⟨100, 50, 2, 3⟩ noFail ⟨some [], []⟩ 0 "d"
            [98, 98, 98, 98, 98]).2.redis.map
            (fun s' => kvGet s' (RKey.chunk "d" i)) =
          some (some (chunkSlice (toStoredBytes ⟨100, 50, 2, 3⟩ [98, 98, 98, 98, 98]) 2 i))) ∧
      ((List.range (chunkCount ⟨100, 50, 2, 3⟩ (toStoredBytes ⟨100, 50, 2, 3⟩ [98, 98, 98, 98, 98]))).map
        (chunkSlice (toStoredBytes ⟨100, 50, 2, 3⟩ [98, 98, 98, 98, 98]) 2)).flatten =
        toStoredBytes ⟨100, 50, 2, 3⟩ [98, 98, 98, 98, 98]) ∧
    (toStoredBytes ⟨100, 50, 2, 3⟩ [98, 98, 98, 98, 98]).length ≤
      chunkCount ⟨100, 50, 2, 3⟩ (toStoredBytes ⟨100, 50, 2, 3⟩ [98, 98, 98, 98, 98]) * 2 ∧
    (0 < (toStoredBytes ⟨100, 50, 2, 3⟩ [98, 98, 98, 98, 98]).length →
      (chunkCount ⟨100, 50, 2, 3⟩ (toStoredBytes ⟨100, 50, 2, 3⟩ [98, 98, 98, 98, 98]) - 1) * 2 <
        (toStoredBytes ⟨100, 50, 2, 3⟩ [98, 98, 98, 98, 98]).length) :=
  claim_C3_chunking ⟨100, 50, 2, 3⟩ ⟨some [], []⟩ 0 "d" [98, 98, 98, 98, 98] []
    (by decide) rfl (by decide)

/-- C4: Compression threshold.  With a positive configured threshold
(the default is 32768; a zero threshold is falsy in the source and
disables compression entirely), `put_doc_text` compresses exactly when
the UTF-8 byte length reaches the threshold — below it the payload is
the raw text, at or above it the payload is the compressed bytes
regardless of any size benefit — and the stored single-key value
carries the literal `gzip:` marker exactly in the compressed case. -/
theorem claim_C4_compress_threshold (cfg : Config) (st : St) (now : Nat) (docId : String)
    (t : Bytes) (s : Store)
    (hid : docId ≠ "") (hr : st.redis = some s) (hthr : 0 < cfg.compressThreshold) :
    (t.length < cfg.compressThreshold →
      isCompressedFlag cfg t = false ∧
      toStoredBytes cfg t = t ∧
      (t.length ≤ cfg.maxSingleKey →
        (put_doc_text cfg noFail st now docId t).2.redis.map
          (fun s' => kvGet s' (RKey.doc docId)) = some (some t))) ∧
    (cfg.compressThreshold ≤ t.length →
      isCompressedFlag cfg t = true ∧
      toStoredBytes cfg t = gzipCompressBytes t ∧
      ((gzipCompressBytes t).length ≤ cfg.maxSingleKey →
        (put_doc_text cfg noFail st now docId t).2.redis.map
          (fun s' => kvGet s' (RKey.doc docId)) =
          some (some (markerCompressed ++ gzipCompressBytes t)))) := by
  constructor
  · intro hlt
    have hflag : isCompressedFlag cfg t = false := by
      unfold isCompressedFlag
      simp
      intro _
      omega
    have hts : toStoredBytes cfg t = t := by
      simp [toStoredBytes, hflag]
    refine ⟨hflag, hts, ?_⟩
    intro hfit
    rw [put_single_state cfg noFail st now docId t s hid hr (by rw [hts]; exact hfit) rfl]
    dsimp only [Option.map]
    rw [kvGet_erase_ne _ _ _ (fun h => RKey.noConfusion h), kvGet_set_self]
    simp [singlePayload, hflag, hts]
  · intro hge
    have hflag : isCompressedFlag cfg t = true := by
      unfold isCompressedFlag
      simp
      exact ⟨by omega, hge⟩
    have hts : toStoredBytes cfg t = gzipCompressBytes t := by
      simp [toStoredBytes, hflag]
    refine ⟨hflag, hts, ?_⟩
    intro hfit
    rw [put_single_state cfg noFail st now docId t s hid hr (by rw [hts]; exact hfit) rfl]
    dsimp only [Option.map]
    rw [kvGet_erase_ne _ _ _ (fun h => RKey.noConfusion h), kvGet_set_self]
    simp [singlePayload, hflag, hts]

/-- C4 witness: threshold 3 — the 2-byte text (threshold − 1) is stored
raw with no marker, the 3-byte text (exactly the threshold) is stored
through the compressed path with the `gzip:` marker. -/
theorem claim_C4_compress_threshold_witness :
    isCompressedFlag ⟨100, 3, 10, 100⟩ [97, 97] = false ∧
    (put_doc_text ⟨100, 3, 10, 100⟩ noFail ⟨some [], []⟩ 0 "d" [97, 97]).2.redis.map
      (fun s' => kvGet s' (RKey.doc "d")) = some (some [97, 97]) ∧
    isCompressedFlag ⟨100, 3, 10, 100⟩ [97, 97, 97] = true ∧
    (put_doc_text ⟨100, 3, 10, 100⟩ noFail ⟨some [], []⟩ 0 "d" [97, 97, 97]).2.redis.map
      (fun s' => kvGet s' (RKey.doc "d")) =
      some (some (markerCompressed ++ gzipCompressBytes [97, 97, 97])) := by
  have h1 := claim_C4_compress_threshold ⟨100, 3, 10, 100⟩ ⟨some [], []⟩ 0 "d" [97, 97] []
    (by decide) rfl (by decide)
  have h2 := claim_C4_compress_threshold ⟨100, 3, 10, 100⟩ ⟨some [], []⟩ 0 "d" [97, 97, 97] []
    (by decide) rfl (by decide)
  exact ⟨(h1.1 (by decide)).1, (h1.1 (by decide)).2.2 (by decide),
    (h2.2 (by decide)).1, (h2.2 (by decide)).2.2 (by decide)⟩

/-- C5: Missing chunk.  When the single key is absent and the meta
record names `m.chunks` chunks but some chunk key with index below
`m.chunks` is missing, chunked reassembly yields the empty string — the
whole document is treated as absent — and `get_doc_text` returns empty
(never a truncated or partial text: the only non-empty return comes
from a complete reassembly, as established by C1/C3). -/
theorem claim_C5_missing_chunk (cfg : Config) (st : St) (now : Nat) (docId : String)
    (s : Store) (m : MetaRec) (i : Nat)
    (hid : docId ≠ "") (hr : st.redis = some s)
    (hdoc : kvGet s (RKey.doc docId) = none)
    (hmeta : kvGet s (RKey.meta docId) = some (metaEncode m))
    (hi : i < m.chunks)
    (hmiss : kvGet s (RKey.chunk docId i) = none)
    (hds : kvGet st.docStore docId = none) :
    decodeRedisValue (some s) none (some docId) = [] ∧
    (get_doc_text cfg st now docId).1 = [] := by
  have hdec : decodeRedisValue (some s) none (some docId) = [] := by
    unfold decodeRedisValue
    dsimp only
    rw [if_neg hid, hmeta]
    dsimp only
    rw [if_neg (metaEncode_ne_nil _), metaDecode_metaEncode]
    dsimp only
    rw [fetchChunks_missing s docId m.chunks i hi hmiss]
  refine ⟨hdec, ?_⟩
  refine get_doc_text_of_result cfg st now docId [] hid ?_ hds
  rw [hr]
  dsimp only
  rw [hdoc, hdec]

/-- C5 witness: meta record announcing 2 chunks with only chunk 0
present. -/
theorem claim_C5_missing_chunk_witness :
    decodeRedisValue
      (some [(RKey.meta "d", metaEncode ⟨2, 4, 4, false⟩), (RKey.chunk "d" 0, [97, 97])])
      none (some "d") = [] ∧
    (get_doc_text ⟨100, 50, 2, 3⟩
      ⟨some [(RKey.meta "d", metaEncode ⟨2, 4, 4, false⟩), (RKey.chunk "d" 0, [97, 97])], []⟩
      0 "d").1 = [] :=
  claim_C5_missing_chunk ⟨100, 50, 2, 3⟩
    ⟨some [(RKey.meta "d", metaEncode ⟨2, 4, 4, false⟩), (RKey.chunk "d" 0, [97, 97])], []⟩
    0 "d" [(RKey.meta "d", metaEncode ⟨2, 4, 4, false⟩), (RKey.chunk "d" 0, [97, 97])]
    ⟨2, 4, 4, false⟩ 1 (by decide) rfl (by decide) (by decide) (by decide) (by decide) rfl

/-- C6: `put_doc_text` returns `False` exactly for the empty identifier,
which is rejected with the state untouched (no backend call is modelled
— the rejection precedes every store access in the source).  For a
non-empty identifier it always returns `True`: when the single-key path
is not taken (`¬(fits ∧ setex ok)`) and the chunked path fails (pipeline
raise, or the `ZeroDivisionError` of a zero chunk size), the raw text is
stored in the in-process fallback map under the same timestamp, so a put
that reports success never silently loses the text. -/
theorem claim_C6_return_value (cfg : Config) (fl : Fail) (st : St) (now : Nat)
    (docId : String) (t : Bytes) :
    ((put_doc_text cfg fl st now docId t).1 = true ↔ docId ≠ "") ∧
    (docId = "" → (put_doc_text cfg fl st now docId t).2 = st) ∧
    (docId ≠ "" → ∀ s, st.redis = some s →
      ¬((toStoredBytes cfg t).length ≤ cfg.maxSingleKey ∧ fl.single = false) →
      (fl.chunk = true ∨ cfg.chunkSize = 0) →
      kvGet (put_doc_text cfg fl st now docId t).2.docStore docId = some (now, t)) := by
  by_cases hid : docId = ""
  · subst hid
    rw [put_empty_state]
    refine ⟨by simp, fun _ => rfl, fun hc => absurd rfl hc⟩
  · have hput1 : (put_doc_text cfg fl st now docId t).1 = true := by
      cases hredis : st.redis with
      | none => rw [put_fallback_state cfg fl st now docId t hid hredis]
      | some s =>
          by_cases hsingle : (toStoredBytes cfg t).length ≤ cfg.maxSingleKey ∧
              fl.single = false
          · rw [put_single_state cfg fl st now docId t s hid hredis hsingle.1 hsingle.2]
          · by_cases hcf : fl.chunk = true ∨ cfg.chunkSize = 0
            · rw [put_chunkfail_state cfg fl st now docId t s hid hredis hsingle hcf]
            · push_neg at hcf
              rw [put_chunked_state cfg fl st now docId t s hid hredis hsingle
                (by cases hfc : fl.chunk with
                    | false => rfl
                    | true => exact absurd hfc hcf.1) hcf.2]
    refine ⟨by simp [hput1, hid], fun hc => absurd hc hid, ?_⟩
    intro _ s hr hnosingle hcf
    rw [put_chunkfail_state cfg fl st now docId t s hid hr hnosingle hcf]
    exact kvGet_set_self _ _ _

/-- C6 witness: with both injected failures, the put of `"a"` under
`"d"` returns `True` and lands in the fallback map; the put under the
empty identifier returns `False`. -/
theorem claim_C6_return_value_witness :
    ((put_doc_text ⟨100, 50, 2, 3⟩ ⟨true, true⟩ ⟨some [], []⟩ 0 "d" [97]).1 = true ↔
      ("d" : String) ≠ "") ∧
    kvGet (put_doc_text ⟨100, 50, 2, 3⟩ ⟨true, true⟩ ⟨some [], []⟩ 0 "d" [97]).2.docStore
      "d" = some (0, [97]) ∧
    ¬(put_doc_text ⟨100, 50, 2, 3⟩ ⟨true, true⟩ ⟨some [], []⟩ 0 "" [97]).1 = true :=
  ⟨(claim_C6_return_value ⟨100, 50, 2, 3⟩ ⟨true, true⟩ ⟨some [], []⟩ 0 "d" [97]).1,
   (claim_C6_return_value ⟨100, 50, 2, 3⟩ ⟨true, true⟩ ⟨some [], []⟩ 0 "d" [97]).2.2
     (by decide) [] rfl (by decide) (Or.inl rfl),
   fun hc => (by decide : ¬(("" : String) ≠ ""))
     ((claim_C6_return_value ⟨100, 50, 2, 3⟩ ⟨true, true⟩ ⟨some [], []⟩ 0 "" [97]).1.mp hc)⟩

/-! ## Lemmas for `clear_doc` -/

theorem kvGet_erase_none {α β : Type} [DecidableEq α] (s : KV α β) (k k' : α)
    (h : kvGet s k = none) : kvGet (kvErase s k') k = none := by
  by_cases hk : k = k'
  · subst hk
    exact kvGet_erase_self s k
  · rw [kvGet_erase_ne s k' k hk, h]

theorem delChunkRange_get_other (s : Store) (id : String) (k : RKey)
    (hk : ∀ i, k ≠ RKey.chunk id i) :
    ∀ n, kvGet (delChunkRange s id n) k = kvGet s k := by
  intro n
  induction n with
  | zero => rfl
  | succ n ih => rw [delChunkRange, kvGet_erase_ne _ _ _ (hk n), ih]

theorem delChunkRange_get_lt (s : Store) (id : String) :
    ∀ n i, i < n → kvGet (delChunkRange s id n) (RKey.chunk id i) = none := by
  intro n
  induction n with
  | zero => intro i h; omega
  | succ n ih =>
      intro i h
      by_cases hi : i = n
      · subst hi
        rw [delChunkRange, kvGet_erase_self]
      · rw [delChunkRange, kvGet_erase_ne _ _ _ (by
          intro hc
          cases hc
          exact hi rfl), ih i (by omega)]

theorem probeDeleteChunks_get_other (id : String) :
    ∀ (fuel : Nat) (s : Store) (i : Nat) (k : RKey), (∀ j, k ≠ RKey.chunk id j) →
      kvGet (probeDeleteChunks id fuel s i) k = kvGet s k := by
  intro fuel
  induction fuel with
  | zero => intro s i k _; rfl
  | succ fuel ih =>
      intro s i k hk
      rw [probeDeleteChunks]
      by_cases hhas : kvHas s (RKey.chunk id i) = true
      · rw [if_pos hhas, ih _ _ _ hk, kvGet_erase_ne _ _ _ (hk i)]
      · rw [if_neg hhas]

theorem probeDeleteChunks_none_preserved (id : String) :
    ∀ (fuel : Nat) (s : Store) (i : Nat) (k : RKey), kvGet s k = none →
      kvGet (probeDeleteChunks id fuel s i) k = none := by
  intro fuel
  induction fuel with
  | zero => intro s i k h; exact h
  | succ fuel ih =>
      intro s i k h
      rw [probeDeleteChunks]
      by_cases hhas : kvHas s (RKey.chunk id i) = true
      · rw [if_pos hhas]
        exact ih _ _ _ (kvGet_erase_none s k _ h)
      · rw [if_neg hhas]
        exact h

/-- Correctness of the probe-delete loop: when chunks `i .. i+n-1` are
present, chunk `i+n` is absent and the fuel exceeds `n`, all of chunks
`i .. i+n-1` are gone afterwards. -/
theorem probeDeleteChunks_clears (id : String) :
    ∀ (n fuel : Nat) (s : Store) (i : Nat),
      (∀ j, j < n → kvHas s (RKey.chunk id (i + j)) = true) →
      kvHas s (RKey.chunk id (i + n)) = false →
      n < fuel →
      ∀ j, j < n → kvGet (probeDeleteChunks id fuel s i) (RKey.chunk id (i + j)) = none := by
  intro n
  induction n with
  | zero => intro fuel s i _ _ _ j hj; omega
  | succ n ih =>
      intro fuel s i hpres habs hfuel j hj
      match fuel with
      | 0 => omega
      | fuel' + 1 =>
        rw [probeDeleteChunks]
        rw [if_pos (by have := hpres 0 (by omega); simpa using this)]
        set s' := kvErase s (RKey.chunk id i) with hs'
        have hpres' : ∀ j', j' < n → kvHas s' (RKey.chunk id (i + 1 + j')) = true := by
          intro j' hj'
          rw [hs']
          unfold kvHas
          rw [kvGet_erase_ne _ _ _ (by
            intro hc
            injection hc with h1 h2
            omega)]
          have := hpres (j' + 1) (by omega)
          rw [show i + (j' + 1) = i + 1 + j' by omega] at this
          exact this
        have habs' : kvHas s' (RKey.chunk id (i + 1 + n)) = false := by
          rw [hs']
          unfold kvHas
          rw [kvGet_erase_ne _ _ _ (by
            intro hc
            injection hc with h1 h2
            omega)]
          have := habs
          rw [show i + (n + 1) = i + 1 + n by omega] at this
          exact this
        by_cases hj0 : j = 0
        · subst hj0
          rw [Nat.add_zero]
          apply probeDeleteChunks_none_preserved
          rw [hs']
          exact kvGet_erase_self s _
        · have := ih fuel' s' (i + 1) hpres' habs' (by omega) (j - 1) (by omega)
          rw [show i + 1 + (j - 1) = i + j by omega] at this
          exact this

/-- After `clearRedisKeys` the meta key is either gone or still holds
the falsy empty value the source refuses to touch. -/
theorem clearRedisKeys_meta (s : Store) (id : String) :
    kvGet (clearRedisKeys s id) (RKey.meta id) = none ∨
    kvGet (clearRedisKeys s id) (RKey.meta id) = some [] := by
  unfold clearRedisKeys
  dsimp only
  cases hmeta : kvGet (kvErase s (RKey.doc id)) (RKey.meta id) with
  | none =>
      dsimp only
      left
      exact hmeta
  | some mv =>
      dsimp only
      by_cases hnil : mv = []
      · right
        rw [if_pos hnil, hmeta, hnil]
      · left
        rw [if_neg hnil]
        rw [kvGet_erase_self]

theorem clearRedisKeys_doc (s : Store) (id : String) :
    kvGet (clearRedisKeys s id) (RKey.doc id) = none := by
  unfold clearRedisKeys
  dsimp only
  cases hmeta : kvGet (kvErase s (RKey.doc id)) (RKey.meta id) with
  | none =>
      dsimp only
      exact kvGet_erase_self s _
  | some mv =>
      dsimp only
      by_cases hnil : mv = []
      · rw [if_pos hnil]
        exact kvGet_erase_self s _
      · rw [if_neg hnil]
        apply kvGet_erase_none
        cases hdec : metaDecode mv with
        | some m =>
            dsimp only
            rw [delChunkRange_get_other _ _ _ (fun i h => RKey.noConfusion h)]
            exact kvGet_erase_self s _
        | none =>
            dsimp only
            apply probeDeleteChunks_none_preserved
            exact kvGet_erase_self s _

theorem clear_state (st : St) (docId : String) (hid : docId ≠ "") :
    clear_doc st docId =
      (true, ⟨st.redis.map (fun s => clearRedisKeys s docId),
              kvErase st.docStore docId⟩) := by
  unfold clear_doc
  rw [if_neg hid]
  cases hredis : st.redis with
  | none =>
      dsimp only
      rw [hredis]
      rfl
  | some s => rfl

/-- After a clear, a read sees no single key and a deleted (or falsy)
meta record, so it reports the document as absent. -/
theorem get_of_cleared (cfg : Config) (st2 : St) (now : Nat) (docId : String)
    (hid : docId ≠ "")
    (hdoc : ∀ s', st2.redis = some s' → kvGet s' (RKey.doc docId) = none)
    (hmeta : ∀ s', st2.redis = some s' →
      kvGet s' (RKey.meta docId) = none ∨ kvGet s' (RKey.meta docId) = some [])
    (hds : kvGet st2.docStore docId = none) :
    (get_doc_text cfg st2 now docId).1 = [] := by
  refine get_doc_text_of_result cfg st2 now docId [] hid ?_ hds
  cases hredis : st2.redis with
  | none => rfl
  | some s' =>
      dsimp only
      rw [hdoc s' hredis]
      unfold decodeRedisValue
      dsimp only
      rw [if_neg hid]
      rcases hmeta s' hredis with h | h
      · rw [h]
      · rw [h]
        dsimp only
        rw [if_pos rfl]

/-- C7: `clear_doc` deletes the single key and (when truthy) the meta
key; the chunk keys implied by a parseable meta record are all deleted,
and with an unparseable meta record the probe loop deletes the
contiguous run of chunk keys from index 0; the fallback-map entry is
removed unconditionally; the call is idempotent — both consecutive calls
return `True` and `get_doc_text` reports the document absent after
either. -/
theorem claim_C7_clear (cfg : Config) (st : St) (now : Nat) (docId : String)
    (hid : docId ≠ "") :
    (clear_doc st docId).1 = true ∧
    (clear_doc (clear_doc st docId).2 docId).1 = true ∧
    kvGet (clear_doc st docId).2.docStore docId = none ∧
    (get_doc_text cfg (clear_doc st docId).2 now docId).1 = [] ∧
    (get_doc_text cfg (clear_doc (clear_doc st docId).2 docId).2 now docId).1 = [] ∧
    (∀ s, st.redis = some s →
      kvGet (clearRedisKeys s docId) (RKey.doc docId) = none ∧
      (kvGet s (RKey.meta docId) ≠ some [] →
        kvGet (clearRedisKeys s docId) (RKey.meta docId) = none) ∧
      (∀ v m, kvGet s (RKey.meta docId) = some v → metaDecode v = some m →
        ∀ i, i < m.chunks →
          kvGet (clearRedisKeys s docId) (RKey.chunk docId i) = none) ∧
      (∀ v n, kvGet s (RKey.meta docId) = some v → v ≠ [] → metaDecode v = none →
        (∀ j, j < n → kvHas (kvErase s (RKey.doc docId)) (RKey.chunk docId j) = true) →
        kvHas (kvErase s (RKey.doc docId)) (RKey.chunk docId n) = false →
        n ≤ kvLen (kvErase s (RKey.doc docId)) →
        ∀ j, j < n →
          kvGet (clearRedisKeys s docId) (RKey.chunk docId j) = none)) := by
  rw [clear_state st docId hid]
  dsimp only
  rw [clear_state ⟨st.redis.map (fun s => clearRedisKeys s docId),
    kvErase st.docStore docId⟩ docId hid]
  dsimp only
  refine ⟨rfl, rfl, kvGet_erase_self _ _, ?_, ?_, ?_⟩
  · refine get_of_cleared cfg _ now docId hid ?_ ?_ (kvGet_erase_self _ _)
    · intro s' h
      cases hr0 : st.redis with
      | none => rw [hr0] at h; cases h
      | some s0 =>
          rw [hr0] at h
          injection h with h'
          subst h'
          exact clearRedisKeys_doc s0 docId
    · intro s' h
      cases hr0 : st.redis with
      | none => rw [hr0] at h; cases h
      | some s0 =>
          rw [hr0] at h
          injection h with h'
          subst h'
          exact clearRedisKeys_meta s0 docId
  · refine get_of_cleared cfg _ now docId hid ?_ ?_ (kvGet_erase_self _ _)
    · intro s' h
      cases hr0 : st.redis with
      | none => rw [hr0] at h; cases h
      | some s0 =>
          rw [hr0] at h
          injection h with h'
          subst h'
          exact clearRedisKeys_doc _ docId
    · intro s' h
      cases hr0 : st.redis with
      | none => rw [hr0] at h; cases h
      | some s0 =>
          rw [hr0] at h
          injection h with h'
          subst h'
          exact clearRedisKeys_meta _ docId
  · intro s _
    refine ⟨clearRedisKeys_doc s docId, ?_, ?_, ?_⟩
    · intro hne
      unfold clearRedisKeys
      dsimp only
      cases hmeta : kvGet (kvErase s (RKey.doc docId)) (RKey.meta docId) with
      | none =>
          dsimp only
          exact hmeta
      | some mv =>
          dsimp only
          have hmv : kvGet s (RKey.meta docId) = some mv := by
            rw [← kvGet_erase_ne s (RKey.doc docId) (RKey.meta docId)
              (fun h => RKey.noConfusion h)]
            exact hmeta
          have hmvnil : mv ≠ [] := by
            intro hc
            subst hc
            exact hne hmv
          rw [if_neg hmvnil]
          rw [kvGet_erase_self]
    · intro v m hv hdec i hi
      unfold clearRedisKeys
      dsimp only
      have hv1 : kvGet (kvErase s (RKey.doc docId)) (RKey.meta docId) = some v := by
        rw [kvGet_erase_ne s (RKey.doc docId) (RKey.meta docId)
          (fun h => RKey.noConfusion h)]
        exact hv
      rw [hv1]
      dsimp only
      have hvnil : v ≠ [] := by
        intro hc
        subst hc
        rw [show metaDecode [] = none from rfl] at hdec
        cases hdec
      rw [if_neg hvnil]
      rw [hdec]
      dsimp only
      rw [kvGet_erase_ne _ _ _ (fun h => RKey.noConfusion h)]
      exact delChunkRange_get_lt _ docId m.chunks i hi
    · intro v n hv hvnil hdec hpres habs hlen j hj
      unfold clearRedisKeys
      dsimp only
      have hv1 : kvGet (kvErase s (RKey.doc docId)) (RKey.meta docId) = some v := by
        rw [kvGet_erase_ne s (RKey.doc docId) (RKey.meta docId)
          (fun h => RKey.noConfusion h)]
        exact hv
      rw [hv1]
      dsimp only
      rw [if_neg hvnil]
      rw [hdec]
      dsimp only
      rw [kvGet_erase_ne _ _ _ (fun h => RKey.noConfusion h)]
      have hclr := probeDeleteChunks_clears docId n
        (kvLen (kvErase s (RKey.doc docId)) + 1) (kvErase s (RKey.doc docId)) 0
        (by intro j' hj'; rw [Nat.zero_add]; exact hpres j' hj')
        (by rw [Nat.zero_add]; exact habs) (by omega) j hj
      rw [Nat.zero_add] at hclr
      exact hclr

/-- C7 witness: concrete state with single key, parseable 1-chunk meta
record, chunk 0 and a fallback-map entry; both clears return `True`,
every key is gone and both reads report absence. -/
theorem claim_C7_clear_witness :
    (clear_doc ⟨some [(RKey.doc "d", [97]), (RKey.meta "d", metaEncode ⟨1, 2, 2, false⟩),
        (RKey.chunk "d" 0, [97, 97])], [("d", (0, [97]))]⟩ "d").1 = true ∧
    (clear_doc (clear_doc ⟨some [(RKey.doc "d", [97]),
        (RKey.meta "d", metaEncode ⟨1, 2, 2, false⟩),
        (RKey.chunk "d" 0, [97, 97])], [("d", (0, [97]))]⟩ "d").2 "d").1 = true ∧
    kvGet (clear_doc ⟨some [(RKey.doc "d", [97]),
        (RKey.meta "d", metaEncode ⟨1, 2, 2, false⟩),
        (RKey.chunk "d" 0, [97, 97])], [("d", (0, [97]))]⟩ "d").2.docStore "d" = none ∧
    (get_doc_text ⟨100, 50, 2, 3⟩ (clear_doc ⟨some [(RKey.doc "d", [97]),
        (RKey.meta "d", metaEncode ⟨1, 2, 2, false⟩),
        (RKey.chunk "d" 0, [97, 97])], [("d", (0, [97]))]⟩ "d").2 0 "d").1 = [] ∧
    kvGet (clearRedisKeys [(RKey.doc "d", [97]),
        (RKey.meta "d", metaEncode ⟨1, 2, 2, false⟩),
        (RKey.chunk "d" 0, [97, 97])] "d") (RKey.doc "d") = none ∧
    kvGet (clearRedisKeys [(RKey.doc "d", [97]),
        (RKey.meta "d", metaEncode ⟨1, 2, 2, false⟩),
        (RKey.chunk "d" 0, [97, 97])] "d") (RKey.meta "d") = none ∧
    kvGet (clearRedisKeys [(RKey.doc "d", [97]),
        (RKey.meta "d", metaEncode ⟨1, 2, 2, false⟩),
        (RKey.chunk "d" 0, [97, 97])] "d") (RKey.chunk "d" 0) = none := by
  have h := claim_C7_clear ⟨100, 50, 2, 3⟩ ⟨some [(RKey.doc "d", [97]),
    (RKey.meta "d", metaEncode ⟨1, 2, 2, false⟩),
    (RKey.chunk "d" 0, [97, 97])], [("d", (0, [97]))]⟩ 0 "d" (by decide)
  obtain ⟨h1, h2, h3, h4, _, h6⟩ := h
  have h7 := h6 [(RKey.doc "d", [97]), (RKey.meta "d", metaEncode ⟨1, 2, 2, false⟩),
    (RKey.chunk "d" 0, [97, 97])] rfl
  refine ⟨h1, h2, h3, h4, h7.1, h7.2.1 (by decide), ?_⟩
  exact h7.2.2.1 (metaEncode ⟨1, 2, 2, false⟩) ⟨1, 2, 2, false⟩ rfl (by decide) 0 (by decide)

/-- C8: Fallback mode.  With no remote backend configured, a put stores
the raw uncompressed text with its timestamp in the in-process map and
returns `True` (the Redis side stays unconfigured); a get enforces the
TTL lazily — an entry older than `ttl_seconds` is evicted and reported
absent, a fresh one is returned unchanged; `clear_doc` removes the
entry; `redis_healthy` returns `False`. -/
theorem claim_C8_fallback (cfg : Config) (st : St) (now now2 ts : Nat) (docId : String)
    (t txt : Bytes) (hid : docId ≠ "") (hr : st.redis = none) :
    (put_doc_text cfg noFail st now docId t).1 = true ∧
    kvGet (put_doc_text cfg noFail st now docId t).2.docStore docId = some (now, t) ∧
    (put_doc_text cfg noFail st now docId t).2.redis = none ∧
    (kvGet st.docStore docId = some (ts, txt) →
      (cfg.docTtlSeconds < now2 - ts →
        (get_doc_text cfg st now2 docId).1 = [] ∧
        kvGet (get_doc_text cfg st now2 docId).2.docStore docId = none) ∧
      (¬cfg.docTtlSeconds < now2 - ts →
        get_doc_text cfg st now2 docId = (txt, st))) ∧
    kvGet (clear_doc st docId).2.docStore docId = none ∧
    (clear_doc st docId).1 = true ∧
    redis_healthy st = false := by
  rw [put_fallback_state cfg noFail st now docId t hid hr]
  rw [clear_state st docId hid]
  refine ⟨rfl, kvGet_set_self _ _ _, hr, ?_, kvGet_erase_self _ _, rfl, ?_⟩
  · intro hts
    have hget : get_doc_text cfg st now2 docId =
        (if cfg.docTtlSeconds < now2 - ts then
          ([], { st with docStore := kvErase st.docStore docId })
        else (txt, st)) := by
      unfold get_doc_text
      rw [if_neg hid]
      dsimp only
      rw [hr]
      dsimp only
      rw [if_neg (by simp), hts]
    constructor
    · intro hexp
      rw [hget, if_pos hexp]
      exact ⟨rfl, kvGet_erase_self _ _⟩
    · intro hfresh
      rw [hget, if_neg hfresh]
  · unfold redis_healthy
    rw [hr]

/-- C8 witness: entry written at time 0 with TTL 100: expired at time
200 (evicted), served unchanged at time 50; put/clear/health behave as
claimed. -/
theorem claim_C8_fallback_witness :
    (put_doc_text ⟨100, 50, 2, 3⟩ noFail ⟨none, [("d", (0, [97]))]⟩ 0 "d" [98]).1 = true ∧
    kvGet (put_doc_text ⟨100, 50, 2, 3⟩ noFail ⟨none, [("d", (0, [97]))]⟩
      0 "d" [98]).2.docStore "d" = some (0, [98]) ∧
    (put_doc_text ⟨100, 50, 2, 3⟩ noFail ⟨none, [("d", (0, [97]))]⟩
      0 "d" [98]).2.redis = none ∧
    (get_doc_text ⟨100, 50, 2, 3⟩ ⟨none, [("d", (0, [97]))]⟩ 200 "d").1 = [] ∧
    kvGet (get_doc_text ⟨100, 50, 2, 3⟩ ⟨none, [("d", (0, [97]))]⟩
      200 "d").2.docStore "d" = none ∧
    get_doc_text ⟨100, 50, 2, 3⟩ ⟨none, [("d", (0, [97]))]⟩ 50 "d" =
      ([97], ⟨none, [("d", (0, [97]))]⟩) ∧
    kvGet (clear_doc ⟨none, [("d", (0, [97]))]⟩ "d").2.docStore "d" = none ∧
    (clear_doc ⟨none, [("d", (0, [97]))]⟩ "d").1 = true ∧
    redis_healthy ⟨none, [("d", (0, [97]))]⟩ = false := by
  have h1 := claim_C8_fallback ⟨100, 50, 2, 3⟩ ⟨none, [("d", (0, [97]))]⟩ 0 200 0 "d"
    [98] [97] (by decide) rfl
  have h2 := claim_C8_fallback ⟨100, 50, 2, 3⟩ ⟨none, [("d", (0, [97]))]⟩ 0 50 0 "d"
    [98] [97] (by decide) rfl
  obtain ⟨p1, p2, p3, g1, c1, c2, hh⟩ := h1
  have g1' := g1 rfl
  have g2' := (h2.2.2.2.1 rfl).2 (by decide)
  exact ⟨p1, p2, p3, (g1'.1 (by decide)).1, (g1'.1 (by decide)).2, g2', c1, c2, hh⟩

/-- Correctness of the probe-count loop: with chunks `i .. i+n-1`
present, chunk `i+n` absent and fuel above `n`, it returns `n`. -/
theorem probeCountChunks_spec (s : Store) (id : String) :
    ∀ (n fuel i : Nat),
      (∀ j, j < n → kvHas s (RKey.chunk id (i + j)) = true) →
      kvHas s (RKey.chunk id (i + n)) = false →
      n < fuel →
      probeCountChunks s id fuel i = n := by
  intro n
  induction n with
  | zero =>
      intro fuel i _ habs hfuel
      match fuel with
      | 0 => omega
      | fuel' + 1 =>
        rw [probeCountChunks, if_neg (by
          rw [show i + 0 = i from rfl] at habs
          rw [habs]
          exact Bool.false_ne_true)]
  | succ n ih =>
      intro fuel i hpres habs hfuel
      match fuel with
      | 0 => omega
      | fuel' + 1 =>
        rw [probeCountChunks, if_pos (by
          have := hpres 0 (by omega)
          simpa using this)]
        have hpres' : ∀ j, j < n → kvHas s (RKey.chunk id (i + 1 + j)) = true := by
          intro j hj
          have := hpres (j + 1) (by omega)
          rw [show i + (j + 1) = i + 1 + j by omega] at this
          exact this
        have habs' : kvHas s (RKey.chunk id (i + 1 + n)) = false := by
          rw [show i + 1 + n = i + (n + 1) by omega]
          exact habs
        rw [ih fuel' (i + 1) hpres' habs' (by omega)]
        omega

/-- C9: `build_chunks_from_redis` is a read-only derived view (it takes
the state and returns a list without producing a new state).  It returns
the empty list for the empty identifier; exactly one descriptor with
index 0, key `doc:{id}` and the stored byte length when the single-key
form exists; and otherwise one descriptor per chunk in index order
`0 .. chunk_count-1` with keys `doc:{id}:chunk:{i}` and each chunk's
stored byte length, where the count is read from a truthy meta record
or, when the meta record is absent or falsy, found by sequential
probing. -/
theorem claim_C9_build (st : St) (pc : Nat) (docId : String) (s : Store)
    (hid : docId ≠ "") (hr : st.redis = some s) :
    build_chunks_from_redis st pc "" = [] ∧
    (∀ v, kvGet s (RKey.doc docId) = some v →
      (build_chunks_from_redis st pc docId).map
        (fun d => (d.chunkIndex, d.redisKey, d.storedBytes)) =
        [(0, renderKey (RKey.doc docId), v.length)]) ∧
    (∀ mv m, kvGet s (RKey.doc docId) = none →
      kvGet s (RKey.meta docId) = some mv → mv ≠ [] → metaDecode mv = some m →
      ∀ cs : Nat → Bytes,
        (∀ i, i < m.chunks → kvGet s (RKey.chunk docId i) = some (cs i)) →
        (build_chunks_from_redis st pc docId).map
          (fun d => (d.chunkIndex, d.redisKey, d.storedBytes)) =
          (List.range m.chunks).map
            (fun i => (i, renderKey (RKey.chunk docId i), (cs i).length))) ∧
    (∀ n, kvGet s (RKey.doc docId) = none →
      (kvGet s (RKey.meta docId) = none ∨ kvGet s (RKey.meta docId) = some []) →
      kvHas s (RKey.chunk docId n) = false →
      n ≤ kvLen s →
      ∀ cs : Nat → Bytes,
        (∀ i, i < n → kvGet s (RKey.chunk docId i) = some (cs i)) →
        (build_chunks_from_redis st pc docId).map
          (fun d => (d.chunkIndex, d.redisKey, d.storedBytes)) =
          (List.range n).map
            (fun i => (i, renderKey (RKey.chunk docId i), (cs i).length))) := by
  refine ⟨by unfold build_chunks_from_redis; rw [if_pos rfl], ?_, ?_, ?_⟩
  · intro v hv
    unfold build_chunks_from_redis
    rw [if_neg hid, hr]
    dsimp only
    rw [hv]
    dsimp only
    simp [singleKeyDesc]
  · intro mv m hdoc hmv hmvne hdec cs hcs
    unfold build_chunks_from_redis
    rw [if_neg hid, hr]
    dsimp only
    rw [hdoc]
    dsimp only
    rw [hmv]
    dsimp only
    rw [if_pos hmvne, hdec]
    dsimp only
    rw [List.map_map]
    apply List.map_congr_left
    intro i hi
    have hi' : i < m.chunks := List.mem_range.mp hi
    simp [chunkDescAt, hcs i hi']
  · intro n hdoc hmeta habs hlen cs hcs
    have hpres : ∀ j, j < n → kvHas s (RKey.chunk docId j) = true := by
      intro j hj
      unfold kvHas
      rw [hcs j hj]
      rfl
    have hcount : (if kvHas s (RKey.chunk docId 0) = false then 0
        else probeCountChunks s docId (kvLen s + 1) 0) = n := by
      match n with
      | 0 => rw [if_pos habs]
      | n' + 1 =>
          rw [if_neg (by rw [hpres 0 (by omega)]; exact fun hc => Bool.noConfusion hc)]
          have := probeCountChunks_spec s docId (n' + 1) (kvLen s + 1) 0
            (by intro j hj; rw [Nat.zero_add]; exact hpres j hj)
            (by rw [Nat.zero_add]; exact habs) (by omega)
          exact this
    unfold build_chunks_from_redis
    rw [if_neg hid, hr]
    dsimp only
    rw [hdoc]
    dsimp only
    rcases hmeta with h | h
    · rw [h]
      dsimp only
      rw [hcount]
      rw [List.map_map]
      apply List.map_congr_left
      intro i hi
      have hi' : i < n := List.mem_range.mp hi
      simp [chunkDescAt, hcs i hi']
    · rw [h]
      dsimp only
      rw [if_neg (by simp), hcount]
      rw [List.map_map]
      apply List.map_congr_left
      intro i hi
      have hi' : i < n := List.mem_range.mp hi
      simp [chunkDescAt, hcs i hi']

/-- C9 witness: a store holding a single-key doc under `"d"` and a
meta-less contiguous 2-chunk layout under `"e"`, plus the empty-id
case. -/
theorem claim_C9_build_witness :
    build_chunks_from_redis ⟨some [(RKey.doc "d", [97, 98]),
      (RKey.chunk "e" 0, [1, 2]), (RKey.chunk "e" 1, [3])], []⟩ 256 "" = [] ∧
    (build_chunks_from_redis ⟨some [(RKey.doc "d", [97, 98]),
        (RKey.chunk "e" 0, [1, 2]), (RKey.chunk "e" 1, [3])], []⟩ 256 "d").map
      (fun d => (d.chunkIndex, d.redisKey, d.storedBytes)) =
      [(0, renderKey (RKey.doc "d"), 2)] ∧
    (build_chunks_from_redis ⟨some [(RKey.doc "d", [97, 98]),
        (RKey.chunk "e" 0, [1, 2]), (RKey.chunk "e" 1, [3])], []⟩ 256 "e").map
      (fun d => (d.chunkIndex, d.redisKey, d.storedBytes)) =
      (List.range 2).map
        (fun i => (i, renderKey (RKey.chunk "e" i), (if i = 0 then [1, 2] else [3]).length)) := by
  have h := claim_C9_build ⟨some [(RKey.doc "d", [97, 98]),
    (RKey.chunk "e" 0, [1, 2]), (RKey.chunk "e" 1, [3])], []⟩ 256 "d"
    [(RKey.doc "d", [97, 98]), (RKey.chunk "e" 0, [1, 2]), (RKey.chunk "e" 1, [3])]
    (by decide) rfl
  have h2 := claim_C9_build ⟨some [(RKey.doc "d", [97, 98]),
    (RKey.chunk "e" 0, [1, 2]), (RKey.chunk "e" 1, [3])], []⟩ 256 "e"
    [(RKey.doc "d", [97, 98]), (RKey.chunk "e" 0, [1, 2]), (RKey.chunk "e" 1, [3])]
    (by decide) rfl
  refine ⟨h.1, h.2.1 [97, 98] (by decide), ?_⟩
  exact h2.2.2.2 2 (by decide) (Or.inl (by decide)) (by decide) (by decide)
    (fun i => if i = 0 then [1, 2] else [3])
    (by intro i hi
        match i, hi with
        | 0, _ => decide
        | 1, _ => decide)

/-- C10: A text stored single-key and uncompressed whose UTF-8 bytes
begin with the marker `gzip:`, with the remaining bytes not a valid gzip
stream, is still returned intact: the reader strips the marker, the
decompression attempt fails, and the decoder falls back to decoding the
entire raw stored value — marker included — as UTF-8.  (For valid UTF-8
the failure hypothesis is automatic: see
`gzipDecompress_fails_on_marker_tail`.) -/
theorem claim_C10_marker_raw (cfg : Config) (st : St) (now : Nat) (docId : String)
    (s : Store) (t rest : Bytes)
    (hid : docId ≠ "") (hr : st.redis = some s)
    (hv : kvGet s (RKey.doc docId) = some t)
    (ht : utf8Valid t = true)
    (hmark : t = markerCompressed ++ rest)
    (hgz : gzipDecompressBytes rest = none) :
    decodeRedisValue (some s) (some t) (some docId) = t ∧
    (get_doc_text cfg st now docId).1 = t := by
  have hdec : decodeRedisValue (some s) (some t) (some docId) = t := by
    unfold decodeRedisValue
    dsimp only
    rw [if_pos (by
      rw [hmark, List.isPrefixOf_iff_prefix]
      exact List.prefix_append _ _)]
    rw [show t.drop markerCompressed.length = rest by rw [hmark, List.drop_left' rfl]]
    rw [hgz]
    simp only [utf8Decode, ht, if_true, Option.getD_some]
  refine ⟨hdec, ?_⟩
  unfold get_doc_text
  rw [if_neg hid]
  dsimp only
  rw [hr]
  dsimp only
  rw [hv, hdec]
  rw [if_pos (by rw [hmark]; exact fun hc => List.noConfusion hc)]

/-- C10 witness: the raw ASCII text `gzip:h`, whose post-marker byte
`h` is not a gzip stream, is returned intact. -/
theorem claim_C10_marker_raw_witness :
    decodeRedisValue (some [(RKey.doc "d", [103, 122, 105, 112, 58, 104])])
      (some [103, 122, 105, 112, 58, 104]) (some "d") =
      [103, 122, 105, 112, 58, 104] ∧
    (get_doc_text ⟨100, 50, 2, 3⟩
      ⟨some [(RKey.doc "d", [103, 122, 105, 112, 58, 104])], []⟩ 0 "d").1 =
      [103, 122, 105, 112, 58, 104] :=
  claim_C10_marker_raw ⟨100, 50, 2, 3⟩
    ⟨some [(RKey.doc "d", [103, 122, 105, 112, 58, 104])], []⟩ 0 "d"
    [(RKey.doc "d", [103, 122, 105, 112, 58, 104])]
    [103, 122, 105, 112, 58, 104] [104]
    (by decide) rfl (by decide) (by decide) (by decide) (by decide)
